import Mathlib

/-!
Verification of the basin-vectorization core of WaterNet_vectorize.

The development shallowly embeds the two source modules:

* `connect.py` (class `Connector`): eligibility nodes, the directed edge
  list built by `add_edges_to_graph`, the edge weight function
  `get_weight`, the per-component minimum-elevation representatives and
  the staged multi-source path stitcher `get_paths`.

* `vectorize.py` (class `Vectorizer`): the connectivity-count grid
  `make_count_8_grid` and the skeleton tracer
  (`make_all_simple_linestrings`, `make_all_linestrings_starting_at_1`,
  `make_all_linestrings_starting_at_2`, `add_remaining`,
  `investigate_row_col`), plus the error-relevant structure of
  `connect_to_base_waterways`.

Grids are total functions on integer coordinates; machine floats are
modelled by exact rationals extended with infinities and a NaN element
whose comparison and multiplication semantics follow IEEE-754 as used by
numpy and Python where the code actually exercises them.  Unbounded
Python recursion and while-loops are modelled with explicit fuel and an
`Option` result; fuel sufficiency is proved where termination matters.
-/

/-- Integer raster coordinate (row, col), as used throughout both modules. -/
abbrev Pos : Type := ℤ × ℤ

/-- Floating-point values as used by `get_weight`: exact finite value,
positive and negative infinity, and NaN (arising from `0 * inf`). -/
inductive EF where
  | fin : ℚ → EF
  | inf : EF
  | ninf : EF
  | nan : EF
deriving DecidableEq, Repr

/-- IEEE strict greater-than on extended values; any comparison with NaN
is false.  This is the comparison Python's builtin `max` performs. -/
def efgt : EF → EF → Bool
  | EF.nan, _ => false
  | _, EF.nan => false
  | EF.inf, EF.inf => false
  | EF.inf, _ => true
  | EF.ninf, _ => false
  | EF.fin _, EF.inf => false
  | EF.fin _, EF.ninf => true
  | EF.fin a, EF.fin b => decide (b < a)

/-- IEEE less-or-equal on extended values; any comparison with NaN is false. -/
def efle : EF → EF → Bool
  | EF.nan, _ => false
  | _, EF.nan => false
  | EF.ninf, _ => true
  | EF.inf, EF.inf => true
  | EF.inf, _ => false
  | EF.fin _, EF.ninf => false
  | EF.fin _, EF.inf => true
  | EF.fin a, EF.fin b => decide (a ≤ b)

/-- IEEE strict less-than on extended values; any comparison with NaN is false. -/
def eflt : EF → EF → Bool
  | EF.nan, _ => false
  | _, EF.nan => false
  | EF.inf, _ => false
  | EF.ninf, EF.ninf => false
  | EF.ninf, _ => true
  | EF.fin _, EF.ninf => false
  | EF.fin _, EF.inf => true
  | EF.fin a, EF.fin b => decide (a < b)

/-- IEEE equality test on extended values; NaN is equal to nothing. -/
def efeq : EF → EF → Bool
  | EF.fin a, EF.fin b => decide (a = b)
  | EF.inf, EF.inf => true
  | EF.ninf, EF.ninf => true
  | _, _ => false

/-- IEEE multiplication restricted to the value kinds reachable in
`get_weight`; in particular `0 * inf = NaN`, matching numpy. -/
def efmul : EF → EF → EF
  | EF.nan, _ => EF.nan
  | _, EF.nan => EF.nan
  | EF.fin a, EF.fin b => EF.fin (a * b)
  | EF.fin a, EF.inf => if 0 < a then EF.inf else if a < 0 then EF.ninf else EF.nan
  | EF.inf, EF.fin a => if 0 < a then EF.inf else if a < 0 then EF.ninf else EF.nan
  | EF.fin a, EF.ninf => if 0 < a then EF.ninf else if a < 0 then EF.inf else EF.nan
  | EF.ninf, EF.fin a => if 0 < a then EF.ninf else if a < 0 then EF.inf else EF.nan
  | EF.inf, EF.inf => EF.inf
  | EF.inf, EF.ninf => EF.ninf
  | EF.ninf, EF.inf => EF.ninf
  | EF.ninf, EF.ninf => EF.inf

/-- Python's builtin `max(a, b)`: return `b` exactly when `b > a`, so a
NaN first argument propagates (`max(nan, x) = nan`). -/
def pymax (a b : EF) : EF := if efgt b a then b else a

/-- `Connector.get_weight` from `connect.py`.  The elevation difference
is clamped below at `0`, replaced by `inf` when it exceeds
`max_elevation_diff`; a zero difference returns the origin cell's
confidence weight, otherwise `max(weight * diff, diff)` is returned with
Python `max` semantics. -/
def get_weight (elevation_grid weight_grid : Pos → ℚ) (node1 node2 : Pos)
    (max_elevation_diff : ℚ := 20) : EF :=
  let elevation1 := elevation_grid node1
  let elevation2 := elevation_grid node2
  let weight := weight_grid node1
  let elevation_diff0 : ℚ := max 0 (elevation1 - elevation2)
  let elevation_diff : EF :=
    if max_elevation_diff < elevation_diff0 then EF.inf else EF.fin elevation_diff0
  if efeq elevation_diff (EF.fin 0) then EF.fin weight
  else pymax (efmul (EF.fin weight) elevation_diff) elevation_diff

/-- Elevation grid giving `node1 = (0,0)` elevation `d` and every other
cell elevation `0`, so the elevation difference toward `(0,1)` is `d`. -/
def elev_of (d : ℚ) : Pos → ℚ := fun p => if p = ((0 : ℤ), (0 : ℤ)) then d else 0

/-- Constant confidence-weight grid. -/
def wgt_of (w : ℚ) : Pos → ℚ := fun _ => w

/-- The per-basin grids and metadata handed to `Connector.__init__`
(`basin_data` in `connect.py`).  Grids are total functions on integer
coordinates; the array shape is `num_rows` by `num_cols`. -/
structure BasinData where
  num_rows : ℕ
  num_cols : ℕ
  probability_grid : Pos → ℚ
  component_grid : Pos → ℤ
  elevation_grid : Pos → ℚ
  weight_grid : Pos → ℚ
  main_component : ℤ

/-- All in-range cells of an `nr` by `nc` grid in row-major order, the
iteration order of `np.where` and of nested `range` comprehensions. -/
def rect_list (nr nc : ℕ) : List Pos :=
  (List.range nr).flatMap
    (fun (r : ℕ) => (List.range nc).map (fun (c : ℕ) => ((r : ℤ), (c : ℤ))))

/-- In-range test for an `nr` by `nc` grid. -/
def in_range (nr nc : ℕ) (p : Pos) : Bool :=
  decide (0 ≤ p.1) && decide (p.1 < (nr : ℤ)) && decide (0 ≤ p.2) && decide (p.2 < (nc : ℤ))

/-- Membership in `Connector.nodes`: the in-range cells whose
probability exceeds `min_probability` or whose component label is
positive. -/
def node_mem (bd : BasinData) (min_probability : ℚ) (p : Pos) : Bool :=
  in_range bd.num_rows bd.num_cols p &&
    (decide (min_probability < bd.probability_grid p) || decide (0 < bd.component_grid p))

/-- The offset pairs produced by `for i in indices for j in indices`
with `indices = [-1, 0, 1]` in `Connector.add_edges_to_graph`; the
`(0, 0)` offset is included, exactly as in the source. -/
def indices_offsets : List Pos :=
  [(-1, -1), (-1, 0), (-1, 1), (0, -1), (0, 0), (0, 1), (1, -1), (1, 0), (1, 1)]

/-- `Connector.add_edges_to_graph` with the default `nodes_list`: the
weighted directed edge list `[(row, col), (row+i, col+j), get_weight(...)]`
for every node and every offset pair whose endpoint is again a node. -/
def add_edges_to_graph (bd : BasinData) (min_probability : ℚ) : List (Pos × Pos × EF) :=
  ((rect_list bd.num_rows bd.num_cols).filter (node_mem bd min_probability)).flatMap
    (fun p => indices_offsets.filterMap (fun o =>
      let q : Pos := (p.1 + o.1, p.2 + o.2)
      if node_mem bd min_probability q then
        some (p, q, get_weight bd.elevation_grid bd.weight_grid p q)
      else none))

/-- One-cell basin used as a concrete graph-builder input. -/
def bd_one : BasinData :=
  { num_rows := 1
    num_cols := 1
    probability_grid := fun _ => 1
    component_grid := fun _ => 0
    elevation_grid := fun _ => 0
    weight_grid := fun _ => 5
    main_component := 1 }


/-- Numpy basic slice semantics for `grid[a:b]` along an axis of length
`n`: negative endpoints have `n` added, then both are clipped to
`[0, n]`; the result is the (possibly empty) index range.  This is the
indexing used by the 3 by 3 window reads in `connect.py`. -/
def slice_idx (n : ℕ) (a b : ℤ) : List ℤ :=
  let a2 := if a < 0 then a + n else a
  let b2 := if b < 0 then b + n else b
  let lo := max 0 a2
  let hi := min (n : ℤ) b2
  (List.range (hi - lo).toNat).map (fun (k : ℕ) => lo + (k : ℤ))

/-- The 3 by 3 window mean
`elevation_grid[row-1:row+2, col-1:col+2].mean()` used by
`get_component_min_elevation_points`; an empty slice (which numpy
produces at `row == 0` or `col == 0` once the negative start wraps past
the stop) yields NaN, as `np.mean` of an empty array does. -/
def local_mean (bd : BasinData) (p : Pos) : EF :=
  let rs := slice_idx bd.num_rows (p.1 - 1) (p.1 + 2)
  let cs := slice_idx bd.num_cols (p.2 - 1) (p.2 + 2)
  let cells := rs.flatMap (fun r => cs.map (fun c => ((r, c) : Pos)))
  if cells.length = 0 then EF.nan
  else EF.fin ((cells.map bd.elevation_grid).sum / (cells.length : ℚ))

/-- Lookup in the insertion-ordered dictionary
`min_elevation_points` keyed by component label. -/
def assoc_find : List (ℤ × EF × Pos) → ℤ → Option (EF × Pos)
  | [], _ => none
  | e :: rest, c => if e.1 = c then some e.2 else assoc_find rest c

/-- In-place update of the dictionary entry for key `c`. -/
def assoc_update : List (ℤ × EF × Pos) → ℤ → EF × Pos → List (ℤ × EF × Pos)
  | [], _, _ => []
  | e :: rest, c, v => if e.1 = c then (c, v) :: rest else e :: assoc_update rest c v

/-- One loop iteration of `get_component_min_elevation_points`:
`setdefault` the cell's component, then replace the stored entry when
the cell's local mean elevation compares strictly below it (IEEE
comparison, so a NaN candidate never replaces). -/
def min_elev_step (bd : BasinData) (acc : List (ℤ × EF × Pos)) (p : Pos) :
    List (ℤ × EF × Pos) :=
  let c := bd.component_grid p
  let e := local_mean bd p
  match assoc_find acc c with
  | none => acc ++ [(c, e, p)]
  | some em => if eflt e em.1 then assoc_update acc c (e, p) else acc

/-- The dictionary built by `get_component_min_elevation_points`,
iterating `np.where(component_grid > 0)` in row-major order. -/
def min_elev_assoc (bd : BasinData) : List (ℤ × EF × Pos) :=
  ((rect_list bd.num_rows bd.num_cols).filter
    (fun p => decide (0 < bd.component_grid p))).foldl (min_elev_step bd) []

/-- `Connector.get_component_min_elevation_points`: the chosen
representative node of every component, in dictionary insertion order. -/
def get_component_min_elevation_points (bd : BasinData) : List Pos :=
  (min_elev_assoc bd).map (fun e => e.2.2)

/-- The mutable state of `Connector.get_paths`: the component and
weight grids (the latter is the Connector's own copy), the growing
source list, the pending targets, the seen components and the committed
paths with their `i + 3` tag. -/
structure StitchState where
  component_grid : Pos → ℤ
  weight_grid : Pos → ℚ
  sources : List Pos
  targets : List Pos
  components_seen : List ℤ
  paths_to_return : List (Pos × List Pos × ℕ)

/-- The backward walk of a committed path (`for row, col in path[::-1]`):
save and relabel cells, zeroing their weight entries, until the first
cell whose current component is already in `components_seen`. -/
def walk_path (seen : List ℤ) (new_component : ℤ) :
    List Pos → (Pos → ℤ) → (Pos → ℚ) → List Pos × (Pos → ℤ) × (Pos → ℚ)
  | [], g, w => ([], g, w)
  | cell :: rest, g, w =>
    if g cell ∈ seen then ([], g, w)
    else
      let g2 : Pos → ℤ := fun q => if q = cell then new_component else g q
      let w2 : Pos → ℚ := fun q => if q = cell then 0 else w q
      let res := walk_path seen new_component rest g2 w2
      (cell :: res.1, res.2)

/-- Committing one `(target, path)` pair inside `get_paths`: skip empty
paths; otherwise walk the path backward, record the saved cells with
tag `i + 3`, extend the sources with the relabeled component's cells,
mark the component seen and drop the target. -/
def commit_target (nr nc : ℕ) (i : ℕ) (st : StitchState) (target : Pos) (path : List Pos) :
    StitchState :=
  if path.length = 0 then st
  else
    let new_component := st.component_grid target
    let res := walk_path st.components_seen new_component path.reverse
      st.component_grid st.weight_grid
    { component_grid := res.2.1
      weight_grid := res.2.2
      sources := st.sources ++
        (rect_list nr nc).filter (fun p => decide (res.2.1 p = new_component))
      targets := st.targets.erase target
      components_seen := st.components_seen ++ [new_component]
      paths_to_return := st.paths_to_return ++ [(target, res.1, i + 3)] }

/-- Stable insertion step for the ascending sort by path length. -/
def insert_by_len (x : Pos × List Pos) : List (Pos × List Pos) → List (Pos × List Pos)
  | [] => [x]
  | y :: ys => if x.2.length ≤ y.2.length then x :: y :: ys else y :: insert_by_len x ys

/-- `target_paths.sort(key=lambda x: len(x[1]))`: a stable ascending
sort by path length. -/
def sort_by_len : List (Pos × List Pos) → List (Pos × List Pos)
  | [] => []
  | x :: xs => insert_by_len x (sort_by_len xs)

/-- The inner loop of one cutoff stage: commit each sorted
`(target, path)` pair in order. -/
def run_stage (nr nc : ℕ) (i : ℕ) (st : StitchState)
    (target_paths : List (Pos × List Pos)) : StitchState :=
  target_paths.foldl (fun s tp => commit_target nr nc i s tp.1 tp.2) st

/-- The staged loop of `get_paths` over the enumerated cutoff list.  The
multi-source Dijkstra search is external (`networkx`), so it enters as
an oracle mapping sources, cutoff and target to the found path (empty
when unreached, as `paths.get(target, [])` yields). -/
def get_paths_stages (nr nc : ℕ) (oracle : List Pos → ℚ → Pos → List Pos) :
    List (ℕ × ℚ) → StitchState → StitchState
  | [], st => st
  | (i, cutoff) :: rest, st =>
    let target_paths := st.targets.map (fun t => (t, oracle st.sources cutoff t))
    let st2 := run_stage nr nc i st (sort_by_len target_paths)
    if st2.targets.length = 0 then st2 else get_paths_stages nr nc oracle rest st2

/-- `Connector.get_paths` from the initial state built in
`Connector.__init__` and the preamble of `get_paths`: sources are the
main component's cells, targets the per-component minimum-elevation
representatives, and the main component is seen from the start. -/
def connector_get_paths (bd : BasinData) (oracle : List Pos → ℚ → Pos → List Pos)
    (cut_offs : List ℚ) : StitchState :=
  let st0 : StitchState :=
    { component_grid := bd.component_grid
      weight_grid := bd.weight_grid
      sources := (rect_list bd.num_rows bd.num_cols).filter
        (fun p => decide (bd.component_grid p = bd.main_component))
      targets := get_component_min_elevation_points bd
      components_seen := [bd.main_component]
      paths_to_return := [] }
  get_paths_stages bd.num_rows bd.num_cols oracle cut_offs.enum st0

/-- The caller's view after running the Connector.  In
`Connector.__init__` the weight grid is copied
(`basin_data.weight_grid.copy()`), so writes to the Connector's weight
grid never reach the caller's array, while the component grid is
aliased (`self.component_grid = basin_data.component_grid`), so its
relabelings do.  The returned `BasinData` is what the caller observes. -/
def connector_run (bd : BasinData) (oracle : List Pos → ℚ → Pos → List Pos)
    (cut_offs : List ℚ) : StitchState × BasinData :=
  let final := connector_get_paths bd oracle cut_offs
  (final, { bd with component_grid := final.component_grid })

/-- A 1 by 3 basin: main component `1` at `(0,0)`, orphan component `2`
at `(0,2)`, the middle cell unassigned. -/
def bd_stitch : BasinData :=
  { num_rows := 1
    num_cols := 3
    probability_grid := fun _ => 1
    component_grid := fun p =>
      if p = ((0 : ℤ), (0 : ℤ)) then 1 else if p = ((0 : ℤ), (2 : ℤ)) then 2 else 0
    elevation_grid := fun _ => 0
    weight_grid := fun _ => 5
    main_component := 1 }

/-- A path oracle connecting `(0,2)` through the middle cell. -/
def stitch_oracle : List Pos → ℚ → Pos → List Pos := fun _ _ t =>
  if t = ((0 : ℤ), (2 : ℤ)) then
    [((0 : ℤ), (0 : ℤ)), ((0 : ℤ), (1 : ℤ)), ((0 : ℤ), (2 : ℤ))] else []

/-- The `{line, point}` record held by the connecting dictionary that
`connect_to_base_waterways` expects. -/
structure ConnectingInfo where
  line : List (ℚ × ℚ)
  point : ℚ × ℚ

/-- Python runtime errors relevant to the Geometry Assembler. -/
inductive PyErr where
  | attributeError
deriving DecidableEq, Repr

/-- The attributes of `Vectorizer` read by `connect_to_base_waterways`.
The `connecting_dict` attribute is an `Option` because the initializer
line that would assign it (`self.connecting_dict =
self.get_connecting_lines()`) is commented out in `Vectorizer.__init__`
and no other method assigns it, so the attribute is absent (`none`) in
every instance the class itself constructs. -/
structure VectorizerConnectState where
  line_strings : List (List (ℚ × ℚ))
  connecting_dict : Option (List ((ℚ × ℚ) × ConnectingInfo))
  reference_waterway_data : List (List (ℚ × ℚ))

/-- The `connecting_dict` value every `Vectorizer.__init__` run leaves
behind: absent, since its assignment is commented out. -/
def vectorizer_connecting_dict : Option (List ((ℚ × ℚ) × ConnectingInfo)) := none

/-- Membership test `coords in self.connecting_dict`. -/
def dict_find (d : List ((ℚ × ℚ) × ConnectingInfo)) (c : ℚ × ℚ) : Option ConnectingInfo :=
  match d with
  | [] => none
  | e :: rest => if e.1 = c then some e.2 else dict_find rest c

/-- The interior scan `for coords in coords_list` of
`connect_to_base_waterways`, stopping at the first connecting point. -/
def first_connection (d : List ((ℚ × ℚ) × ConnectingInfo)) :
    List (ℚ × ℚ) → Option ConnectingInfo
  | [] => none
  | c :: rest =>
    match dict_find d c with
    | some info => some info
    | none => first_connection d rest

/-- The `to_add` list built for one traced line: empty when both head
and tail already touch connecting points, otherwise the line plus the
head, tail or first interior connector segment when one exists. -/
def line_to_add (d : List ((ℚ × ℚ) × ConnectingInfo)) (line : List (ℚ × ℚ)) :
    List (List (ℚ × ℚ)) :=
  let head_coords := line.head?.getD ((0 : ℚ), (0 : ℚ))
  let tail_coords := line.getLast?.getD ((0 : ℚ), (0 : ℚ))
  match dict_find d head_coords, dict_find d tail_coords with
  | some _, some _ => []
  | some info, none => [line, info.line]
  | none, some info => [line, info.line]
  | none, none =>
    match first_connection d line with
    | some info => [line, info.line]
    | none => [line]

/-- `Vectorizer.connect_to_base_waterways`.  The loop body dereferences
`self.connecting_dict` on its first membership test, so with the
attribute absent any non-empty `line_strings` raises `AttributeError`;
with no lines the loop never runs and the output frame is just the
reference lines tagged `from_tdx = True`.  The shapely `unary_union` is
external and enters as an oracle merging each `to_add` list. -/
def connect_to_base_waterways
    (union_oracle : List (List (ℚ × ℚ)) → List (List (ℚ × ℚ)))
    (v : VectorizerConnectState) : Except PyErr (List (Bool × List (ℚ × ℚ))) :=
  match v.line_strings with
  | [] => Except.ok (v.reference_waterway_data.map (fun g => (true, g)))
  | _ :: _ =>
    match v.connecting_dict with
    | none => Except.error PyErr.attributeError
    | some d =>
      let new_linestrings := v.line_strings.flatMap (fun line =>
        let to_add := line_to_add d line
        if to_add.length = 0 then [] else union_oracle to_add)
      Except.ok (v.reference_waterway_data.map (fun g => (true, g)) ++
        new_linestrings.map (fun g => (false, g)))

/-- A vectorizer state holding one traced line, as produced by any run
whose skeleton tracer emitted at least one chain of length over one. -/
def v_fail : VectorizerConnectState :=
  { line_strings := [[((0 : ℚ), (0 : ℚ)), ((1 : ℚ), (0 : ℚ))]]
    connecting_dict := vectorizer_connecting_dict
    reference_waterway_data := [] }

/-- Pointwise update of an integer grid, the effect of
`grid[row, col] = v`. -/
def upd_grid (f : Pos → ℤ) (p : Pos) (v : ℤ) : Pos → ℤ := fun q => if q = p then v else f q

/-- The decrement `grid[row, col] -= 1`. -/
def dec_at (f : Pos → ℤ) (p : Pos) : Pos → ℤ := upd_grid f p (f p - 1)

/-- The fixed neighbor priority order of `investigate_row_col`:
orthogonal neighbors before diagonal ones. -/
def neighbor_offsets : List Pos :=
  [(1, 0), (-1, 0), (0, 1), (0, -1), (1, 1), (-1, 1), (1, -1), (-1, -1)]

/-- The tracer state threaded through `investigate_row_col`: the
mutable connectivity-count grid and the symmetric `connections_seen`
pair set (stored with both orientations of every consumed pair). -/
structure TrState where
  count : Pos → ℤ
  seen : List (Pos × Pos)

/-- The neighbor scan of `investigate_row_col`: the first neighbor in
priority order with a positive current count whose pair with the
current cell has not been consumed. -/
def find_neighbor (cnt : Pos → ℤ) (seen : List (Pos × Pos)) (p : Pos) : Option Pos :=
  (neighbor_offsets.map (fun o => ((p.1 + o.1, p.2 + o.2) : Pos))).find?
    (fun q => decide (0 < cnt q) && !(decide ((p, q) ∈ seen)))

/-- `Vectorizer.investigate_row_col`.  Decrement the entry cell, scan
for an eligible neighbor; on success mark the pair consumed (both
orientations), decrement the neighbor and append it, recursing exactly
when the neighbor's initial count was 2 and `investigate_all` is false;
on failure pop the chain's last cell.  The Python recursion is
unbounded, so fuel exhaustion returns `none`. -/
def investigate_row_col (init : Pos → ℤ) (investigate_all : Bool) :
    ℕ → TrState → Pos → List Pos → Option (TrState × List Pos)
  | 0, _, _, _ => none
  | fuel + 1, s, p, chain =>
    let c1 := dec_at s.count p
    match find_neighbor c1 s.seen p with
    | none => some ({ count := c1, seen := s.seen }, chain.dropLast)
    | some q =>
      let s2 : TrState := { count := dec_at c1 q, seen := (p, q) :: (q, p) :: s.seen }
      if init q = 1 ∧ investigate_all = false then some (s2, chain ++ [q])
      else if init q = 2 ∧ investigate_all = false then
        investigate_row_col init investigate_all fuel s2 q (chain ++ [q])
      else some (s2, chain ++ [q])

/-- The full tracer state: count grid, consumed pairs, and the chains
accumulated in `self.line_strings`. -/
structure VecTState where
  count : Pos → ℤ
  seen : List (Pos × Pos)
  chains : List (List Pos)

/-- The loop body of `make_all_linestrings_starting_at_1` over the
snapshot of cells whose count was 1, re-checking the count before each
investigation. -/
def run_starts_1 (init : Pos → ℤ) (fuel : ℕ) : VecTState → List Pos → Option VecTState
  | s, [] => some s
  | s, p :: rest =>
    if s.count p = 1 then
      match investigate_row_col init false fuel ⟨s.count, s.seen⟩ p [p] with
      | none => none
      | some (ts, chain) =>
          run_starts_1 init fuel ⟨ts.count, ts.seen, s.chains ++ [chain]⟩ rest
    else run_starts_1 init fuel s rest

/-- `Vectorizer.make_all_linestrings_starting_at_1` with the default
`investigate_all=False`: snapshot `np.where(count == 1)` and process it. -/
def make_all_linestrings_starting_at_1 (nr nc : ℕ) (init : Pos → ℤ) (fuel : ℕ)
    (s : VecTState) : Option VecTState :=
  run_starts_1 init fuel s ((rect_list nr nc).filter (fun p => decide (s.count p = 1)))

/-- The loop `while np.any(count_grid == 1)` around
`make_all_linestrings_starting_at_1`, with its own iteration fuel. -/
def while_any_1 (nr nc : ℕ) (init : Pos → ℤ) (fuelI : ℕ) : ℕ → VecTState → Option VecTState
  | 0, s => if (rect_list nr nc).any (fun p => decide (s.count p = 1)) then none else some s
  | f + 1, s =>
    if (rect_list nr nc).any (fun p => decide (s.count p = 1)) then
      match make_all_linestrings_starting_at_1 nr nc init fuelI s with
      | none => none
      | some s2 => while_any_1 nr nc init fuelI f s2
    else some s

/-- The loop body of `make_all_linestrings_starting_at_2` (with
`ignore_init=False` as called): investigate forward while the count is
positive, and when count remains, reverse the chain and investigate
again; keep the chain when it has length over one. -/
def run_starts_2 (init : Pos → ℤ) (fuel : ℕ) : VecTState → List Pos → Option VecTState
  | s, [] => some s
  | s, p :: rest =>
    let step1 : Option (TrState × List Pos) :=
      if 0 < s.count p then investigate_row_col init false fuel ⟨s.count, s.seen⟩ p [p]
      else some (⟨s.count, s.seen⟩, [p])
    match step1 with
    | none => none
    | some t1c =>
      let step2 : Option (TrState × List Pos) :=
        if 0 < t1c.1.count p then investigate_row_col init false fuel t1c.1 p t1c.2.reverse
        else some t1c
      match step2 with
      | none => none
      | some t2c =>
        let chains2 := if 1 < t2c.2.length then s.chains ++ [t2c.2] else s.chains
        run_starts_2 init fuel ⟨t2c.1.count, t2c.1.seen, chains2⟩ rest

/-- `Vectorizer.make_all_linestrings_starting_at_2` with the default
`ignore_init=False`: snapshot `np.where((count == 2) & (init == 2))`. -/
def make_all_linestrings_starting_at_2 (nr nc : ℕ) (init : Pos → ℤ) (fuel : ℕ)
    (s : VecTState) : Option VecTState :=
  run_starts_2 init fuel s
    ((rect_list nr nc).filter (fun p => decide (s.count p = 2) && decide (init p = 2)))

/-- The inner sweep of `Vectorizer.add_remaining`: investigate every
snapshot cell with `investigate_all=True`, without re-checking counts. -/
def run_remaining (init : Pos → ℤ) (fuel : ℕ) : VecTState → List Pos → Option VecTState
  | s, [] => some s
  | s, p :: rest =>
    match investigate_row_col init true fuel ⟨s.count, s.seen⟩ p [p] with
    | none => none
    | some (ts, chain) => run_remaining init fuel ⟨ts.count, ts.seen, s.chains ++ [chain]⟩ rest

/-- The loop `while np.any(count_grid > 0)` of `add_remaining`. -/
def while_remaining (nr nc : ℕ) (init : Pos → ℤ) (fuelI : ℕ) :
    ℕ → VecTState → Option VecTState
  | 0, s => if (rect_list nr nc).any (fun p => decide (0 < s.count p)) then none else some s
  | f + 1, s =>
    if (rect_list nr nc).any (fun p => decide (0 < s.count p)) then
      match run_remaining init fuelI s
          ((rect_list nr nc).filter (fun p => decide (1 ≤ s.count p))) with
      | none => none
      | some s2 => while_remaining nr nc init fuelI f s2
    else some s

/-- `Vectorizer.make_all_simple_linestrings`: the endpoint pass, the
through and cycle pass, the second endpoint pass and the cleanup pass,
in source order. -/
def make_all_simple_linestrings (nr nc : ℕ) (init : Pos → ℤ) (fuel : ℕ) (s : VecTState) :
    Option VecTState :=
  (while_any_1 nr nc init fuel fuel s).bind (fun s1 =>
    (make_all_linestrings_starting_at_2 nr nc init fuel s1).bind (fun s2 =>
      (while_any_1 nr nc init fuel fuel s2).bind (fun s3 =>
        while_remaining nr nc init fuel fuel s3)))

/-- The 3 by 3 window around a cell, centre included. -/
def three_by_three (p : Pos) : List Pos :=
  [(p.1 - 1, p.2 - 1), (p.1 - 1, p.2), (p.1 - 1, p.2 + 1),
   (p.1, p.2 - 1), (p.1, p.2), (p.1, p.2 + 1),
   (p.1 + 1, p.2 - 1), (p.1 + 1, p.2), (p.1 + 1, p.2 + 1)]

/-- `Vectorizer.make_count_8_grid` on the padded binary mask: on mask
cells, the binarized 3 by 3 window sum minus one (the count of active
8-neighbors); elsewhere zero. -/
def make_count_8_grid (mask : Pos → ℤ) : Pos → ℤ := fun p =>
  if 0 < mask p then
    ((three_by_three p).map (fun q => if 0 < mask q then (1 : ℤ) else 0)).sum - 1
  else 0

/-- The tracer state right after `Vectorizer.__init__` builds the count
grid: no consumed pairs and no chains yet. -/
def tracer_init_state (mask : Pos → ℤ) : VecTState := ⟨make_count_8_grid mask, [], []⟩

/-- The whole skeleton trace of a padded mask: `init_count_grid` is the
untouched copy of the initial count grid. -/
def vectorizer_trace (nr nc : ℕ) (mask : Pos → ℤ) (fuel : ℕ) : Option VecTState :=
  make_all_simple_linestrings nr nc (make_count_8_grid mask) fuel (tracer_init_state mask)

/-- The emitted chains, or an empty list when fuel ran out. -/
def chains_opt : Option VecTState → List (List Pos)
  | none => []
  | some s => s.chains

/-- The final count grid, or the zero grid when fuel ran out. -/
def count_opt : Option VecTState → Pos → ℤ
  | none => fun _ => 0
  | some s => s.count

/-- The consecutive pairs of a chain. -/
def chain_pairs (c : List Pos) : List (Pos × Pos) := c.zip c.tail

/-- Lexicographic order on coordinates, used to orient a pair. -/
def lex_le (a b : Pos) : Bool :=
  decide (a.1 < b.1) || (decide (a.1 = b.1) && decide (a.2 ≤ b.2))

/-- Canonical orientation of an unordered cell pair. -/
def pair_key (e : Pos × Pos) : Pos × Pos := if lex_le e.1 e.2 then e else (e.2, e.1)

/-- The canonical keys of the consecutive pairs of one chain. -/
def chain_keys (c : List Pos) : List (Pos × Pos) := (chain_pairs c).map pair_key

/-- The canonical keys of all consecutive pairs across a chain list. -/
def all_chain_keys (chains : List (List Pos)) : List (Pos × Pos) :=
  chains.flatMap chain_keys

/-- The `connections_seen` map stores both orientations of every pair. -/
def seen_symmetric (seen : List (Pos × Pos)) : Prop := ∀ e ∈ seen, (e.2, e.1) ∈ seen

/-- Every listed key is the key of some consumed pair. -/
def keys_covered (seen : List (Pos × Pos)) (keys : List (Pos × Pos)) : Prop :=
  ∀ k ∈ keys, ∃ e ∈ seen, pair_key e = k

/-- The tracer invariant: the consumed-pair set is symmetric, every
consecutive pair of every accumulated chain is a consumed pair, and no
unordered pair occurs twice among those consecutive pairs. -/
def tracer_inv (s : VecTState) : Prop :=
  seen_symmetric s.seen ∧ keys_covered s.seen (all_chain_keys s.chains)
    ∧ (all_chain_keys s.chains).Nodup

/-- The count grid of an `investigate_row_col` result (zero grid when
fuel ran out). -/
def inv_count_opt : Option (TrState × List Pos) → Pos → ℤ
  | none => fun _ => 0
  | some x => x.1.count

/-- Two distinct mask cells that are 8-adjacent. -/
def mask_adjacent (mask : Pos → ℤ) (a b : Pos) : Prop :=
  mask a = 1 ∧ mask b = 1 ∧ a ≠ b ∧ (a.1 - b.1).natAbs ≤ 1 ∧ (a.2 - b.2).natAbs ≤ 1

/-- The sum of the positive parts of the count grid over the raster. -/
def sum_pos (nr nc : ℕ) (cnt : Pos → ℤ) : ℕ :=
  ((rect_list nr nc).map (fun p => (cnt p).toNat)).sum

/-- The plain sum of the count grid over the raster. -/
def grid_sum (nr nc : ℕ) (cnt : Pos → ℤ) : ℤ := ((rect_list nr nc).map cnt).sum

/-- `sum_pos` of a possibly fuel-exhausted tracer result. -/
def sum_pos_opt (nr nc : ℕ) : Option VecTState → ℕ
  | none => 0
  | some s => sum_pos nr nc s.count

/-- Counts can only be positive on in-range cells (the padded mask is
zero on and outside the border, so the count grid vanishes there). -/
def support_in_rect (nr nc : ℕ) (cnt : Pos → ℤ) : Prop :=
  ∀ p : Pos, in_range nr nc p = false → cnt p ≤ 0

/-- A padded 5 by 5 mask holding a 4-cell diamond loop: every cell has
exactly two 8-neighbors, so every initial connectivity count is 2. -/
def diamond_mask : Pos → ℤ := fun p =>
  if p = ((1 : ℤ), (2 : ℤ)) ∨ p = ((2 : ℤ), (1 : ℤ)) ∨ p = ((2 : ℤ), (3 : ℤ)) ∨
      p = ((3 : ℤ), (2 : ℤ)) then 1 else 0



instance mask_adjacent_decidable (mask : Pos → ℤ) (a b : Pos) :
    Decidable (mask_adjacent mask a b) := by
  unfold mask_adjacent
  infer_instance

theorem elev_of_self (d : ℚ) : elev_of d ((0 : ℤ), (0 : ℤ)) = d := rfl

theorem elev_of_other (d : ℚ) : elev_of d ((0 : ℤ), (1 : ℤ)) = 0 := rfl

/-- Evaluation of `get_weight` on the two-cell configuration with
elevation difference `d > 0` and constant weight `w`. -/
theorem get_weight_elev_eval (w d : ℚ) (hd : 0 < d) :
    get_weight (elev_of d) (wgt_of w) ((0 : ℤ), (0 : ℤ)) ((0 : ℤ), (1 : ℤ)) =
      if 20 < d then pymax (efmul (EF.fin w) EF.inf) EF.inf
      else if w * d < d then EF.fin d else EF.fin (w * d) := by
  have hmax : max (0 : ℚ) (d - 0) = d := by
    rw [sub_zero]
    exact max_eq_right (le_of_lt hd)
  have hne : ¬ (d = 0) := ne_of_gt hd
  simp only [get_weight, elev_of_self, elev_of_other, wgt_of, hmax]
  by_cases h : (20 : ℚ) < d
  · simp [h, efeq]
  · simp only [h, if_false, if_neg h]
    simp [efeq, hne, efmul, pymax, efgt]

/-- C3: evaluating `get_weight` where the origin cell's confidence
weight is `0` (a value `get_paths` itself writes into the weight grid)
and the elevation drop is `21 > 20` yields NaN, not `+inf`: the code
computes `max(0 * inf, inf)`, `0 * inf` is NaN, and Python `max` returns
its first argument on a failed NaN comparison.  This contradicts the
claim and the code's own comment that such an edge is excluded. -/
theorem get_weight_zero_weight_large_drop_is_nan :
    get_weight (elev_of 21) (wgt_of 0) ((0 : ℤ), (0 : ℤ)) ((0 : ℤ), (1 : ℤ)) = EF.nan
      ∧ EF.nan ≠ EF.inf := by
  constructor
  · rw [get_weight_elev_eval 0 21 (by norm_num)]
    norm_num [efmul, pymax, efgt]
  · decide

/-- C4 counterexample: with fixed confidence weight `2`, the cost at
elevation difference `0` is `2` but the cost at elevation difference
`1/2` is `max(2 * 1/2, 1/2) = 1 < 2`, so the cost is not monotonically
non-decreasing from `0` upward: the claim fails at the step from a zero
to a small positive elevation difference. -/
theorem get_weight_not_monotone_from_zero :
    efle (get_weight (elev_of 0) (wgt_of 2) ((0 : ℤ), (0 : ℤ)) ((0 : ℤ), (1 : ℤ)))
        (get_weight (elev_of (1/2)) (wgt_of 2) ((0 : ℤ), (0 : ℤ)) ((0 : ℤ), (1 : ℤ))) = false
      ∧ get_weight (elev_of 0) (wgt_of 2) ((0 : ℤ), (0 : ℤ)) ((0 : ℤ), (1 : ℤ)) = EF.fin 2
      ∧ get_weight (elev_of (1/2)) (wgt_of 2) ((0 : ℤ), (0 : ℤ)) ((0 : ℤ), (1 : ℤ)) = EF.fin 1 := by
  have h0 : get_weight (elev_of 0) (wgt_of 2) ((0 : ℤ), (0 : ℤ)) ((0 : ℤ), (1 : ℤ)) = EF.fin 2 := by
    simp only [get_weight, elev_of_self, elev_of_other, wgt_of]
    norm_num [efeq]
  have hhalf : get_weight (elev_of (1/2)) (wgt_of 2) ((0 : ℤ), (0 : ℤ)) ((0 : ℤ), (1 : ℤ))
      = EF.fin 1 := by
    rw [get_weight_elev_eval 2 (1/2) (by norm_num)]
    norm_num
  refine ⟨?_, h0, hhalf⟩
  rw [h0, hhalf]
  norm_num [efle]

/-- C4 amended: for a fixed strictly positive confidence weight, the
cost returned by `get_weight` is monotonically non-decreasing in the
elevation difference over strictly positive differences (the original
claim fails only at the step from elevation difference `0`, where the
cost is the bare confidence weight, to a small positive difference). -/
theorem get_weight_monotone_on_positive_diffs (w d1 d2 : ℚ)
    (hw : 0 < w) (hd1 : 0 < d1) (hd : d1 ≤ d2) :
    efle (get_weight (elev_of d1) (wgt_of w) ((0 : ℤ), (0 : ℤ)) ((0 : ℤ), (1 : ℤ)))
      (get_weight (elev_of d2) (wgt_of w) ((0 : ℤ), (0 : ℤ)) ((0 : ℤ), (1 : ℤ))) = true := by
  have hd2 : 0 < d2 := lt_of_lt_of_le hd1 hd
  rw [get_weight_elev_eval w d1 hd1, get_weight_elev_eval w d2 hd2]
  have hinf : efmul (EF.fin w) EF.inf = EF.inf := by simp [efmul, hw]
  by_cases h1 : (20 : ℚ) < d1
  · have h2 : (20 : ℚ) < d2 := lt_of_lt_of_le h1 hd
    simp [h1, h2, hinf, pymax, efgt, efle]
  · by_cases h2 : (20 : ℚ) < d2
    · simp only [h1, if_false, if_neg h1, h2, if_true, if_pos h2, hinf]
      have : pymax EF.inf EF.inf = EF.inf := by simp [pymax, efgt]
      rw [this]
      by_cases hg : w * d1 < d1 <;> simp [hg, efle]
    · simp only [h1, if_neg h1, h2, if_neg h2]
      have hmul : w * d1 ≤ w * d2 := mul_le_mul_of_nonneg_left hd (le_of_lt hw)
      by_cases g1 : w * d1 < d1 <;> by_cases g2 : w * d2 < d2 <;>
        simp only [g1, g2, if_pos, if_neg, if_true, if_false, efle, decide_eq_true_eq] <;>
        first
          | exact hd
          | (push_neg at g1 g2; linarith)

/-- C4 amended, witness: weight `1`, elevation differences `1 ≤ 2`. -/
theorem get_weight_monotone_on_positive_diffs_witness :
    (0 : ℚ) < 1 ∧ (0 : ℚ) < 1 ∧ (1 : ℚ) ≤ 2 ∧
      efle (get_weight (elev_of 1) (wgt_of 1) ((0 : ℤ), (0 : ℤ)) ((0 : ℤ), (1 : ℤ)))
        (get_weight (elev_of 2) (wgt_of 1) ((0 : ℤ), (0 : ℤ)) ((0 : ℤ), (1 : ℤ))) = true :=
  ⟨by norm_num, by norm_num, by norm_num,
    get_weight_monotone_on_positive_diffs 1 1 2 (by norm_num) (by norm_num) (by norm_num)⟩

theorem rect_list_mem_iff (nr nc : ℕ) (p : Pos) :
    p ∈ rect_list nr nc ↔ in_range nr nc p = true := by
  cases p with
  | mk a b =>
    constructor
    · intro h
      obtain ⟨r, hr, hm⟩ := List.mem_flatMap.mp h
      obtain ⟨c, hc, heq⟩ := List.mem_map.mp hm
      rw [List.mem_range] at hr hc
      injection heq with e1 e2
      subst e1
      subst e2
      simp only [in_range, Bool.and_eq_true, decide_eq_true_eq]
      refine ⟨⟨⟨?_, ?_⟩, ?_⟩, ?_⟩ <;> omega
    · intro h
      simp only [in_range, Bool.and_eq_true, decide_eq_true_eq] at h
      obtain ⟨⟨⟨ha0, haN⟩, hb0⟩, hbN⟩ := h
      refine List.mem_flatMap.mpr ⟨a.toNat, List.mem_range.mpr (by omega), ?_⟩
      refine List.mem_map.mpr ⟨b.toNat, List.mem_range.mpr (by omega), ?_⟩
      rw [Prod.mk.injEq]
      constructor <;> omega

/-- C5 counterexample: on the one-cell basin the edge list produced by
`add_edges_to_graph` contains the self-loop `((0,0), (0,0))`, because
the offset pair `(0, 0)` is not excluded from the comprehension; the
claim that the graph contains no self-loop is false. -/
theorem add_edges_contains_self_loop :
    ((0 : ℤ), (0 : ℤ)) ∈ (add_edges_to_graph bd_one 0).map (fun e => e.2.1) ∧
      (add_edges_to_graph bd_one 0).map (fun e => (e.1, e.2.1)) =
        [(((0 : ℤ), (0 : ℤ)), ((0 : ℤ), (0 : ℤ)))] := by
  constructor
  · decide
  · decide

/-- C5 amended: the graph produced by the Grid Graph Builder contains a
self-loop at every node, since the offset `(0, 0)` is included in the
edge comprehension; apart from that, every edge joins two eligible
nodes at Chebyshev distance at most one. -/
theorem add_edges_self_loops_and_neighbors (bd : BasinData) (mp : ℚ) (p : Pos)
    (hp : node_mem bd mp p = true) :
    (p, p, get_weight bd.elevation_grid bd.weight_grid p p) ∈ add_edges_to_graph bd mp
      ∧ ∀ e ∈ add_edges_to_graph bd mp,
          node_mem bd mp e.1 = true ∧ node_mem bd mp e.2.1 = true ∧
            (e.2.1.1 - e.1.1).natAbs ≤ 1 ∧ (e.2.1.2 - e.1.2).natAbs ≤ 1 := by
  constructor
  · have hmem : p ∈ (rect_list bd.num_rows bd.num_cols).filter (node_mem bd mp) := by
      rw [List.mem_filter]
      refine ⟨?_, hp⟩
      rw [rect_list_mem_iff]
      simp only [node_mem, Bool.and_eq_true] at hp
      exact hp.1
    rw [add_edges_to_graph, List.mem_flatMap]
    refine ⟨p, hmem, ?_⟩
    rw [List.mem_filterMap]
    refine ⟨((0 : ℤ), (0 : ℤ)), by decide, ?_⟩
    have hq : (p.1 + 0, p.2 + 0) = p := by
      cases p
      simp
    simp only [hq, hp, if_true, if_pos]
  · intro e he
    rw [add_edges_to_graph, List.mem_flatMap] at he
    obtain ⟨a, ha, he⟩ := he
    rw [List.mem_filterMap] at he
    obtain ⟨o, ho, he⟩ := he
    rw [List.mem_filter] at ha
    by_cases hn : node_mem bd mp (a.1 + o.1, a.2 + o.2) = true
    · simp only [hn, if_true, if_pos, Option.some.injEq] at he
      subst he
      refine ⟨ha.2, hn, ?_, ?_⟩
      · have : a.1 + o.1 - a.1 = o.1 := by ring
        rw [this]
        fin_cases ho <;> decide
      · have : a.2 + o.2 - a.2 = o.2 := by ring
        rw [this]
        fin_cases ho <;> decide
    · rw [if_neg hn] at he
      exact absurd he (by simp)

/-- C5 amended, witness: the one-cell basin, node `(0, 0)`. -/
theorem add_edges_self_loops_witness :
    node_mem bd_one 0 ((0 : ℤ), (0 : ℤ)) = true ∧
      (((0 : ℤ), (0 : ℤ)), ((0 : ℤ), (0 : ℤ)),
          get_weight bd_one.elevation_grid bd_one.weight_grid ((0 : ℤ), (0 : ℤ)) ((0 : ℤ), (0 : ℤ)))
        ∈ add_edges_to_graph bd_one 0 :=
  ⟨by decide, (add_edges_self_loops_and_neighbors bd_one 0 ((0 : ℤ), (0 : ℤ)) (by decide)).1⟩

/-- C8: `connect_to_base_waterways` raises `AttributeError` on every
input with at least one traced line, because `Vectorizer.__init__`
leaves the `connecting_dict` attribute unassigned (its assignment is
commented out) and the loop body's first membership test dereferences
it; the claimed error-free splicing never happens. -/
theorem connect_to_base_raises_attribute_error
    (union_oracle : List (List (ℚ × ℚ)) → List (List (ℚ × ℚ)))
    (line : List (ℚ × ℚ)) (rest : List (List (ℚ × ℚ)))
    (refs : List (List (ℚ × ℚ))) :
    connect_to_base_waterways union_oracle
        { line_strings := line :: rest
          connecting_dict := vectorizer_connecting_dict
          reference_waterway_data := refs }
      = Except.error PyErr.attributeError := rfl

theorem walk_path_preserves_seen (seen : List ℤ) (ncomp : ℤ) :
    ∀ (lst : List Pos) (g : Pos → ℤ) (w : Pos → ℚ) (cell : Pos), g cell ∈ seen →
      (walk_path seen ncomp lst g w).2.1 cell = g cell := by
  intro lst
  induction lst with
  | nil => intro g w cell h; rfl
  | cons head rest ih =>
    intro g w cell h
    by_cases hh : g head ∈ seen
    · simp [walk_path, hh]
    · have hcell : cell ≠ head := by
        intro e
        rw [e] at h
        exact hh h
      have h2 : (fun q => if q = head then ncomp else g q) cell ∈ seen := by
        simp only [if_neg hcell]
        exact h
      have := ih (fun q => if q = head then ncomp else g q)
        (fun q => if q = head then 0 else w q) cell h2
      simp only [walk_path, if_neg hh]
      rw [this]
      simp only [if_neg hcell]

theorem commit_target_preserves_seen (nr nc i : ℕ) (st : StitchState) (target : Pos)
    (path : List Pos) (cell : Pos) (h : st.component_grid cell ∈ st.components_seen) :
    (commit_target nr nc i st target path).component_grid cell = st.component_grid cell
      ∧ (commit_target nr nc i st target path).component_grid cell
          ∈ (commit_target nr nc i st target path).components_seen := by
  by_cases hl : path.length = 0
  · constructor
    · simp [commit_target, hl]
    · simp only [commit_target, hl, if_true, if_pos]
      exact h
  · have hpres := walk_path_preserves_seen st.components_seen
      (st.component_grid target) path.reverse st.component_grid st.weight_grid cell h
    constructor
    · simp only [commit_target, hl, if_false, if_neg hl]
      exact hpres
    · simp only [commit_target, hl, if_false, if_neg hl, List.mem_append]
      left
      rw [hpres]
      exact h

theorem run_stage_preserves_seen (nr nc i : ℕ) :
    ∀ (tps : List (Pos × List Pos)) (st : StitchState) (cell : Pos),
      st.component_grid cell ∈ st.components_seen →
      (run_stage nr nc i st tps).component_grid cell = st.component_grid cell
        ∧ (run_stage nr nc i st tps).component_grid cell
            ∈ (run_stage nr nc i st tps).components_seen := by
  intro tps
  induction tps with
  | nil => intro st cell h; exact ⟨rfl, h⟩
  | cons tp rest ih =>
    intro st cell h
    obtain ⟨h1, h2⟩ := commit_target_preserves_seen nr nc i st tp.1 tp.2 cell h
    have hrec := ih (commit_target nr nc i st tp.1 tp.2) cell (h1 ▸ h2)
    simp only [run_stage, List.foldl_cons] at hrec ⊢
    exact ⟨hrec.1.trans h1, hrec.2⟩

theorem get_paths_stages_preserves_seen (nr nc : ℕ)
    (oracle : List Pos → ℚ → Pos → List Pos) :
    ∀ (stages : List (ℕ × ℚ)) (st : StitchState) (cell : Pos),
      st.component_grid cell ∈ st.components_seen →
      (get_paths_stages nr nc oracle stages st).component_grid cell
        = st.component_grid cell := by
  intro stages
  induction stages with
  | nil => intro st cell h; rfl
  | cons stage rest ih =>
    intro st cell h
    obtain ⟨i, cutoff⟩ := stage
    obtain ⟨h1, h2⟩ := run_stage_preserves_seen nr nc i
      (sort_by_len (st.targets.map (fun t => (t, oracle st.sources cutoff t)))) st cell h
    simp only [get_paths_stages]
    by_cases he : (run_stage nr nc i st
        (sort_by_len (st.targets.map (fun t => (t, oracle st.sources cutoff t))))).targets.length = 0
    · simp only [he, if_true, if_pos]
      exact h1
    · simp only [he, if_false, if_neg he]
      have := ih (run_stage nr nc i st
        (sort_by_len (st.targets.map (fun t => (t, oracle st.sources cutoff t))))) cell (h1 ▸ h2)
      exact this.trans h1

/-- C6: the Path Stitcher never relabels a cell whose current component
is already seen: committing any single `(target, path)` pair leaves
every such cell's label unchanged (and still seen), and consequently a
whole `get_paths` run leaves every main-component cell's label intact. -/
theorem stitcher_never_relabels_seen :
    (∀ (nr nc i : ℕ) (st : StitchState) (target : Pos) (path : List Pos) (cell : Pos),
      st.component_grid cell ∈ st.components_seen →
      (commit_target nr nc i st target path).component_grid cell = st.component_grid cell)
    ∧ ∀ (bd : BasinData) (oracle : List Pos → ℚ → Pos → List Pos) (cut_offs : List ℚ)
        (cell : Pos), bd.component_grid cell = bd.main_component →
        (connector_get_paths bd oracle cut_offs).component_grid cell
          = bd.component_grid cell := by
  constructor
  · intro nr nc i st target path cell h
    exact (commit_target_preserves_seen nr nc i st target path cell h).1
  · intro bd oracle cut_offs cell h
    apply get_paths_stages_preserves_seen
    simp only [List.mem_singleton]
    exact h

/-- C6, witness: the 1 by 3 stitch basin, main-component cell `(0,0)`. -/
theorem stitcher_never_relabels_seen_witness :
    bd_stitch.component_grid ((0 : ℤ), (0 : ℤ)) = bd_stitch.main_component ∧
      (connector_get_paths bd_stitch stitch_oracle [2, 8, 100]).component_grid ((0 : ℤ), (0 : ℤ))
        = bd_stitch.component_grid ((0 : ℤ), (0 : ℤ)) :=
  ⟨rfl, stitcher_never_relabels_seen.2 bd_stitch stitch_oracle [2, 8, 100]
    ((0 : ℤ), (0 : ℤ)) rfl⟩

/-- C7 counterexample: on the 1 by 3 stitch basin, the cell `(0,1)` is
committed onto the stitching path for target `(0,2)`, yet the
caller-supplied weight grid still holds its original value `5` there
(only the copy made in `Connector.__init__` was zeroed): the claim that
the caller-supplied `weight_grid` is mutated in place is false. -/
theorem caller_weight_grid_not_mutated :
    ((((0 : ℤ), (2 : ℤ)), [((0 : ℤ), (2 : ℤ)), ((0 : ℤ), (1 : ℤ))], 3) : Pos × List Pos × ℕ)
        ∈ (connector_run bd_stitch stitch_oracle [2, 8, 100]).1.paths_to_return
      ∧ (connector_run bd_stitch stitch_oracle [2, 8, 100]).2.weight_grid ((0 : ℤ), (1 : ℤ)) = 5
      ∧ (connector_run bd_stitch stitch_oracle [2, 8, 100]).1.weight_grid ((0 : ℤ), (1 : ℤ)) = 0
      ∧ (5 : ℚ) ≠ 0 := by
  refine ⟨by decide, rfl, by decide, by norm_num⟩

theorem walk_path_zeroes (seen : List ℤ) (ncomp : ℤ) :
    ∀ (lst : List Pos) (g : Pos → ℤ) (w : Pos → ℚ),
      (∀ cell ∈ (walk_path seen ncomp lst g w).1, (walk_path seen ncomp lst g w).2.2 cell = 0)
        ∧ ∀ q : Pos, w q = 0 → (walk_path seen ncomp lst g w).2.2 q = 0 := by
  intro lst
  induction lst with
  | nil =>
    intro g w
    exact ⟨by intro cell hc; exact absurd hc (List.not_mem_nil cell), fun q hq => hq⟩
  | cons head rest ih =>
    intro g w
    by_cases hh : g head ∈ seen
    · refine ⟨?_, ?_⟩
      · intro cell hc
        simp [walk_path, hh] at hc
      · intro q hq
        simp only [walk_path, if_pos hh]
        exact hq
    · have ihspec := ih (fun q => if q = head then ncomp else g q)
        (fun q => if q = head then 0 else w q)
      refine ⟨?_, ?_⟩
      · intro cell hc
        simp only [walk_path, if_neg hh] at hc ⊢
        rcases List.mem_cons.mp hc with hhead | htail
        · subst hhead
          exact ihspec.2 cell (by simp)
        · exact ihspec.1 cell htail
      · intro q hq
        simp only [walk_path, if_neg hh]
        apply ihspec.2
        by_cases hqh : q = head
        · simp [hqh]
        · simp only [if_neg hqh]
          exact hq

theorem commit_target_zeroes (nr nc i : ℕ) (st : StitchState) (target : Pos)
    (path : List Pos)
    (h : ∀ entry ∈ st.paths_to_return, ∀ cell ∈ entry.2.1, st.weight_grid cell = 0) :
    ∀ entry ∈ (commit_target nr nc i st target path).paths_to_return,
      ∀ cell ∈ entry.2.1, (commit_target nr nc i st target path).weight_grid cell = 0 := by
  by_cases hl : path.length = 0
  · simp only [commit_target, hl, if_true, if_pos]
    exact h
  · simp only [commit_target, hl, if_false, if_neg hl]
    intro entry hentry cell hcell
    have hw := walk_path_zeroes st.components_seen (st.component_grid target) path.reverse
      st.component_grid st.weight_grid
    rcases List.mem_append.mp hentry with hold | hnew
    · exact hw.2 cell (h entry hold cell hcell)
    · rw [List.mem_singleton] at hnew
      subst hnew
      exact hw.1 cell hcell

theorem run_stage_zeroes (nr nc i : ℕ) :
    ∀ (tps : List (Pos × List Pos)) (st : StitchState),
      (∀ entry ∈ st.paths_to_return, ∀ cell ∈ entry.2.1, st.weight_grid cell = 0) →
      ∀ entry ∈ (run_stage nr nc i st tps).paths_to_return,
        ∀ cell ∈ entry.2.1, (run_stage nr nc i st tps).weight_grid cell = 0 := by
  intro tps
  induction tps with
  | nil => intro st h; exact h
  | cons tp rest ih =>
    intro st h
    simp only [run_stage, List.foldl_cons] at ih ⊢
    exact ih (commit_target nr nc i st tp.1 tp.2) (commit_target_zeroes nr nc i st tp.1 tp.2 h)

theorem get_paths_stages_zeroes (nr nc : ℕ) (oracle : List Pos → ℚ → Pos → List Pos) :
    ∀ (stages : List (ℕ × ℚ)) (st : StitchState),
      (∀ entry ∈ st.paths_to_return, ∀ cell ∈ entry.2.1, st.weight_grid cell = 0) →
      ∀ entry ∈ (get_paths_stages nr nc oracle stages st).paths_to_return,
        ∀ cell ∈ entry.2.1, (get_paths_stages nr nc oracle stages st).weight_grid cell = 0 := by
  intro stages
  induction stages with
  | nil => intro st h; exact h
  | cons stage rest ih =>
    intro st h
    obtain ⟨i, cutoff⟩ := stage
    have hstep := run_stage_zeroes nr nc i
      (sort_by_len (st.targets.map (fun t => (t, oracle st.sources cutoff t)))) st h
    simp only [get_paths_stages]
    by_cases he : (run_stage nr nc i st
        (sort_by_len (st.targets.map (fun t => (t, oracle st.sources cutoff t))))).targets.length = 0
    · simp only [he, if_true, if_pos]
      exact hstep
    · simp only [he, if_false, if_neg he]
      exact ih _ hstep

/-- C7 amended: the weight grid mutated during stitching is the
Connector's own copy, not the caller's array: after a full run the
caller-visible weight grid is exactly the one supplied (the copy taken
in `__init__` isolates it), while in the Connector's copy every cell of
every committed path holds weight zero (it is zeroed when committed and
only ever rewritten to zero afterwards); the caller-supplied component
grid, by contrast, is aliased and does receive the relabelings. -/
theorem stitcher_mutates_own_weight_copy (bd : BasinData)
    (oracle : List Pos → ℚ → Pos → List Pos) (cut_offs : List ℚ) :
    (connector_run bd oracle cut_offs).2.weight_grid = bd.weight_grid
      ∧ (connector_run bd oracle cut_offs).2.component_grid
          = (connector_run bd oracle cut_offs).1.component_grid
      ∧ ∀ entry ∈ (connector_run bd oracle cut_offs).1.paths_to_return,
          ∀ cell ∈ entry.2.1, (connector_run bd oracle cut_offs).1.weight_grid cell = 0 := by
  refine ⟨rfl, rfl, ?_⟩
  apply get_paths_stages_zeroes
  intro entry hentry
  exact absurd hentry (List.not_mem_nil entry)

/-- C7 amended, witness: the 1 by 3 stitch basin; cell `(0,1)` of the
committed path for target `(0,2)` holds weight zero in the Connector's
copy. -/
theorem stitcher_mutates_own_weight_copy_witness :
    (connector_run bd_stitch stitch_oracle [2, 8, 100]).1.weight_grid ((0 : ℤ), (1 : ℤ)) = 0 :=
  (stitcher_mutates_own_weight_copy bd_stitch stitch_oracle [2, 8, 100]).2.2
    ((((0 : ℤ), (2 : ℤ)), [((0 : ℤ), (2 : ℤ)), ((0 : ℤ), (1 : ℤ))], 3) : Pos × List Pos × ℕ)
    (by decide) ((0 : ℤ), (1 : ℤ)) (by decide)

theorem assoc_find_none_iff :
    ∀ (acc : List (ℤ × EF × Pos)) (c : ℤ),
      assoc_find acc c = none ↔ c ∉ acc.map (fun e => e.1) := by
  intro acc c
  induction acc with
  | nil => simp [assoc_find]
  | cons e rest ih =>
    by_cases he : e.1 = c
    · simp [assoc_find, he]
    · simp only [assoc_find, he, if_false, if_neg he, List.map_cons, List.mem_cons]
      rw [ih]
      constructor
      · intro h hmem
        rcases hmem with h1 | h2
        · exact he h1.symm
        · exact h h2
      · intro h hmem
        exact h (Or.inr hmem)

theorem assoc_find_some_mem (acc : List (ℤ × EF × Pos)) (c : ℤ) (v : EF × Pos)
    (h : assoc_find acc c = some v) : c ∈ acc.map (fun e => e.1) := by
  by_contra hc
  rw [← assoc_find_none_iff] at hc
  rw [h] at hc
  exact Option.some_ne_none v hc

theorem assoc_update_keys (c : ℤ) (v : EF × Pos) :
    ∀ acc : List (ℤ × EF × Pos),
      (assoc_update acc c v).map (fun e => e.1) = acc.map (fun e => e.1) := by
  intro acc
  induction acc with
  | nil => rfl
  | cons e rest ih =>
    by_cases he : e.1 = c
    · simp [assoc_update, he]
    · simp [assoc_update, he, ih]

theorem assoc_update_labels (bd : BasinData) (c : ℤ) (v : EF × Pos)
    (hv : bd.component_grid v.2 = c) :
    ∀ acc : List (ℤ × EF × Pos),
      acc.map (fun e => e.1) = acc.map (fun e => bd.component_grid e.2.2) →
      (assoc_update acc c v).map (fun e => e.1)
        = (assoc_update acc c v).map (fun e => bd.component_grid e.2.2) := by
  intro acc
  induction acc with
  | nil => intro _; rfl
  | cons e rest ih =>
    intro h
    simp only [List.map_cons, List.cons.injEq] at h
    by_cases he : e.1 = c
    · simp only [assoc_update, he, if_true, if_pos, List.map_cons, List.cons.injEq]
      exact ⟨hv.symm, h.2⟩
    · simp only [assoc_update, he, if_false, if_neg he, List.map_cons, List.cons.injEq]
      exact ⟨h.1, ih h.2⟩

theorem min_elev_fold_spec (bd : BasinData) :
    ∀ (l : List Pos) (acc : List (ℤ × EF × Pos)),
      (acc.map (fun e => e.1)).Nodup →
      acc.map (fun e => e.1) = acc.map (fun e => bd.component_grid e.2.2) →
      ((l.foldl (min_elev_step bd) acc).map (fun e => e.1)).Nodup
        ∧ (l.foldl (min_elev_step bd) acc).map (fun e => e.1)
            = (l.foldl (min_elev_step bd) acc).map (fun e => bd.component_grid e.2.2)
        ∧ ∀ L : ℤ, L ∈ (l.foldl (min_elev_step bd) acc).map (fun e => e.1) ↔
            (L ∈ acc.map (fun e => e.1) ∨ ∃ p ∈ l, bd.component_grid p = L) := by
  intro l
  induction l with
  | nil =>
    intro acc h1 h2
    refine ⟨h1, h2, ?_⟩
    intro L
    simp
  | cons p rest ih =>
    intro acc h1 h2
    simp only [List.foldl_cons]
    rcases hf : assoc_find acc (bd.component_grid p) with _ | em
    · have hnotin : bd.component_grid p ∉ acc.map (fun e => e.1) :=
        (assoc_find_none_iff acc (bd.component_grid p)).mp hf
      have hstep : min_elev_step bd acc p
          = acc ++ [(bd.component_grid p, local_mean bd p, p)] := by
        simp only [min_elev_step, hf]
      rw [hstep]
      have hkeys : (acc ++ [(bd.component_grid p, local_mean bd p, p)]).map (fun e => e.1)
          = acc.map (fun e => e.1) ++ [bd.component_grid p] := by simp
      have h1n : ((acc ++ [(bd.component_grid p, local_mean bd p, p)]).map
          (fun e => e.1)).Nodup := by
        rw [hkeys]
        rw [List.nodup_append]
        exact ⟨h1, List.nodup_singleton _, by
          intro x hx hmem
          rw [List.mem_singleton] at hmem
          subst hmem
          exact hnotin hx⟩
      have h2n : (acc ++ [(bd.component_grid p, local_mean bd p, p)]).map (fun e => e.1)
          = (acc ++ [(bd.component_grid p, local_mean bd p, p)]).map
              (fun e => bd.component_grid e.2.2) := by
        simp only [List.map_append, List.map_cons, List.map_nil]
        rw [h2]
      obtain ⟨ih1, ih2, ih3⟩ := ih (acc ++ [(bd.component_grid p, local_mean bd p, p)]) h1n h2n
      refine ⟨ih1, ih2, ?_⟩
      intro L
      rw [ih3 L, hkeys]
      simp only [List.mem_append, List.mem_singleton]
      constructor
      · rintro ((h | h) | h)
        · exact Or.inl h
        · exact Or.inr ⟨p, List.mem_cons_self p rest, h.symm⟩
        · obtain ⟨q, hq, hcq⟩ := h
          exact Or.inr ⟨q, List.mem_cons_of_mem p hq, hcq⟩
      · rintro (h | ⟨q, hq, hcq⟩)
        · exact Or.inl (Or.inl h)
        · rcases List.mem_cons.mp hq with hqp | hqr
          · subst hqp
            exact Or.inl (Or.inr hcq.symm)
          · exact Or.inr ⟨q, hqr, hcq⟩
    · have hmem : bd.component_grid p ∈ acc.map (fun e => e.1) :=
        assoc_find_some_mem acc (bd.component_grid p) em hf
      have habsorb : ∀ (acc2 : List (ℤ × EF × Pos)),
          acc2.map (fun e => e.1) = acc.map (fun e => e.1) →
          ((acc2.map (fun e => e.1)).Nodup
            ∧ acc2.map (fun e => e.1) = acc2.map (fun e => bd.component_grid e.2.2)) →
          ((rest.foldl (min_elev_step bd) acc2).map (fun e => e.1)).Nodup
            ∧ (rest.foldl (min_elev_step bd) acc2).map (fun e => e.1)
                = (rest.foldl (min_elev_step bd) acc2).map (fun e => bd.component_grid e.2.2)
            ∧ ∀ L : ℤ, L ∈ (rest.foldl (min_elev_step bd) acc2).map (fun e => e.1) ↔
                (L ∈ acc.map (fun e => e.1) ∨ ∃ q ∈ p :: rest, bd.component_grid q = L) := by
        intro acc2 hsame hinv
        obtain ⟨ih1, ih2, ih3⟩ := ih acc2 hinv.1 hinv.2
        refine ⟨ih1, ih2, ?_⟩
        intro L
        rw [ih3 L, hsame]
        constructor
        · rintro (h | ⟨q, hq, hcq⟩)
          · exact Or.inl h
          · exact Or.inr ⟨q, List.mem_cons_of_mem p hq, hcq⟩
        · rintro (h | ⟨q, hq, hcq⟩)
          · exact Or.inl h
          · rcases List.mem_cons.mp hq with hqp | hqr
            · subst hqp
              exact Or.inl (hcq ▸ hmem)
            · exact Or.inr ⟨q, hqr, hcq⟩
      by_cases hlt : eflt (local_mean bd p) em.1 = true
      · have hstep : min_elev_step bd acc p
            = assoc_update acc (bd.component_grid p) (local_mean bd p, p) := by
          simp only [min_elev_step, hf, hlt, if_true, if_pos]
        rw [hstep]
        exact habsorb _ (assoc_update_keys _ _ acc)
          ⟨by rw [assoc_update_keys]; exact h1,
            assoc_update_labels bd (bd.component_grid p) (local_mean bd p, p) rfl acc h2⟩
      · have hstep : min_elev_step bd acc p = acc := by
          simp only [min_elev_step, hf]
          rw [if_neg hlt]
        rw [hstep]
        exact habsorb acc rfl ⟨h1, h2⟩

/-- C10: `get_component_min_elevation_points` returns exactly one
representative cell per distinct positive component label present in
the grid, and each returned cell carries the label of the component it
represents: the labels read off the returned cells are duplicate-free
and coincide with the set of positive labels occurring in the grid. -/
theorem min_elevation_points_one_per_component (bd : BasinData) :
    ((get_component_min_elevation_points bd).map bd.component_grid).Nodup
      ∧ ∀ L : ℤ, L ∈ (get_component_min_elevation_points bd).map bd.component_grid ↔
          (0 < L ∧ ∃ p, p ∈ rect_list bd.num_rows bd.num_cols
            ∧ bd.component_grid p = L) := by
  obtain ⟨h1, h2, h3⟩ := min_elev_fold_spec bd
    ((rect_list bd.num_rows bd.num_cols).filter
      (fun p => decide (0 < bd.component_grid p))) [] (by simp) (by simp)
  have hmaps : (get_component_min_elevation_points bd).map bd.component_grid
      = (min_elev_assoc bd).map (fun e => e.1) := by
    rw [get_component_min_elevation_points, List.map_map]
    rw [min_elev_assoc]
    exact h2.symm
  rw [hmaps, min_elev_assoc]
  refine ⟨h1, ?_⟩
  intro L
  rw [h3 L]
  simp only [List.map_nil, List.not_mem_nil, false_or]
  constructor
  · rintro ⟨q, hq, hcq⟩
    rw [List.mem_filter] at hq
    refine ⟨?_, q, hq.1, hcq⟩
    have := of_decide_eq_true hq.2
    rw [hcq] at this
    exact this
  · rintro ⟨hL, q, hq, hcq⟩
    refine ⟨q, List.mem_filter.mpr ⟨hq, ?_⟩, hcq⟩
    rw [hcq]
    exact decide_eq_true hL

theorem find_neighbor_spec (cnt : Pos → ℤ) (seen : List (Pos × Pos)) (p q : Pos)
    (h : find_neighbor cnt seen p = some q) : 0 < cnt q ∧ (p, q) ∉ seen := by
  have hp := List.find?_some h
  simp only [Bool.and_eq_true, decide_eq_true_eq, Bool.not_eq_true', decide_eq_false_iff_not]
    at hp
  exact hp

theorem dec_at_le (f : Pos → ℤ) (p q : Pos) : dec_at f p q ≤ f q := by
  unfold dec_at upd_grid
  by_cases h : q = p
  · subst h
    simp
  · simp [h]

theorem dec_at_other (f : Pos → ℤ) (p q : Pos) (h : q ≠ p) : dec_at f p q = f q := by
  simp [dec_at, upd_grid, h]

theorem dec_at_self (f : Pos → ℤ) (p : Pos) : dec_at f p p = f p - 1 := by
  simp [dec_at, upd_grid]

theorem investigate_counts_ge (init : Pos → ℤ) (all : Bool) :
    ∀ (fuel : ℕ) (s : TrState) (p : Pos) (chain : List Pos) (ts : TrState)
      (chain2 : List Pos),
      investigate_row_col init all fuel s p chain = some (ts, chain2) →
      (∀ q : Pos, -1 ≤ s.count q) → 0 ≤ s.count p →
      ∀ r : Pos, -1 ≤ ts.count r := by
  intro fuel
  induction fuel with
  | zero => intro s p chain ts chain2 h; exact absurd h (by simp [investigate_row_col])
  | succ f ih =>
    intro s p chain ts chain2 h hall hp
    have hc1 : ∀ q : Pos, -1 ≤ dec_at s.count p q := by
      intro q
      by_cases hq : q = p
      · subst hq
        rw [dec_at_self]
        omega
      · rw [dec_at_other _ _ _ hq]
        exact hall q
    rw [investigate_row_col] at h
    rcases hfind : find_neighbor (dec_at s.count p) s.seen p with _ | q
    · rw [hfind] at h
      simp only [Option.some.injEq, Prod.mk.injEq] at h
      rw [← h.1]
      exact hc1
    · rw [hfind] at h
      dsimp only at h
      obtain ⟨hqpos, _⟩ := find_neighbor_spec _ _ _ _ hfind
      have hc2 : ∀ r : Pos, -1 ≤ dec_at (dec_at s.count p) q r := by
        intro r
        by_cases hr : r = q
        · subst hr
          rw [dec_at_self]
          omega
        · rw [dec_at_other _ _ _ hr]
          exact hc1 r
      by_cases h1 : init q = 1 ∧ all = false
      · rw [if_pos h1] at h
        simp only [Option.some.injEq, Prod.mk.injEq] at h
        rw [← h.1]
        exact hc2
      · rw [if_neg h1] at h
        by_cases h2 : init q = 2 ∧ all = false
        · rw [if_pos h2] at h
          refine ih _ q (chain ++ [q]) ts chain2 h hc2 ?_
          show 0 ≤ dec_at (dec_at s.count p) q q
          rw [dec_at_self]
          omega
        · rw [if_neg h2] at h
          simp only [Option.some.injEq, Prod.mk.injEq] at h
          rw [← h.1]
          exact hc2

theorem investigate_all_true_other (init : Pos → ℤ) (fuel : ℕ) (s : TrState) (p : Pos)
    (chain : List Pos) (ts : TrState) (chain2 : List Pos)
    (h : investigate_row_col init true fuel s p chain = some (ts, chain2)) :
    ∀ r : Pos, r ≠ p → 0 ≤ s.count r → 0 ≤ ts.count r := by
  intro r hr hnn
  match fuel with
  | 0 => exact absurd h (by simp [investigate_row_col])
  | f + 1 =>
    rw [investigate_row_col] at h
    rcases hfind : find_neighbor (dec_at s.count p) s.seen p with _ | q
    · rw [hfind] at h
      simp only [Option.some.injEq, Prod.mk.injEq] at h
      rw [← h.1]
      show 0 ≤ dec_at s.count p r
      rw [dec_at_other _ _ _ hr]
      exact hnn
    · rw [hfind] at h
      dsimp only at h
      obtain ⟨hqpos, _⟩ := find_neighbor_spec _ _ _ _ hfind
      rw [if_neg (by simp : ¬(init q = 1 ∧ true = false)),
        if_neg (by simp : ¬(init q = 2 ∧ true = false))] at h
      simp only [Option.some.injEq, Prod.mk.injEq] at h
      rw [← h.1]
      show 0 ≤ dec_at (dec_at s.count p) q r
      by_cases hrq : r = q
      · subst hrq
        rw [dec_at_self]
        omega
      · rw [dec_at_other _ _ _ hrq, dec_at_other _ _ _ hr]
        exact hnn

theorem rect_list_nodup (nr nc : ℕ) : (rect_list nr nc).Nodup := by
  rw [rect_list, List.nodup_flatMap]
  constructor
  · intro r _
    refine List.Nodup.map ?_ (List.nodup_range nc)
    intro a b hab
    have := congrArg Prod.snd hab
    simpa using this
  · refine List.Pairwise.imp ?_ (List.nodup_range nr)
    intro a b hab
    rw [Function.onFun, List.disjoint_left]
    intro x hxa hxb
    rw [List.mem_map] at hxa hxb
    obtain ⟨ca, _, hca⟩ := hxa
    obtain ⟨cb, _, hcb⟩ := hxb
    apply hab
    have h1 := congrArg Prod.fst hca
    have h2 := congrArg Prod.fst hcb
    simp only at h1 h2
    rw [← hcb] at hca
    have := congrArg Prod.fst hca
    simpa using this

theorem run_starts_1_ge (init : Pos → ℤ) (fuel : ℕ) :
    ∀ (l : List Pos) (s : VecTState) (s2 : VecTState),
      run_starts_1 init fuel s l = some s2 →
      (∀ r : Pos, -1 ≤ s.count r) → ∀ r : Pos, -1 ≤ s2.count r := by
  intro l
  induction l with
  | nil =>
    intro s s2 h hge
    simp only [run_starts_1, Option.some.injEq] at h
    rw [← h]
    exact hge
  | cons p rest ih =>
    intro s s2 h hge
    rw [run_starts_1] at h
    by_cases hp : s.count p = 1
    · rw [if_pos hp] at h
      rcases hinv : investigate_row_col init false fuel ⟨s.count, s.seen⟩ p [p] with _ | tsc
      · rw [hinv] at h
        exact absurd h (by simp)
      · rw [hinv] at h
        have hts := investigate_counts_ge init false fuel ⟨s.count, s.seen⟩ p [p]
          tsc.1 tsc.2 (by rw [hinv]) hge (by show (0 : ℤ) ≤ s.count p; omega)
        exact ih _ s2 h hts
    · rw [if_neg hp] at h
      exact ih _ s2 h hge

theorem while_any_1_ge (nr nc : ℕ) (init : Pos → ℤ) (fuelI : ℕ) :
    ∀ (f : ℕ) (s s2 : VecTState),
      while_any_1 nr nc init fuelI f s = some s2 →
      (∀ r : Pos, -1 ≤ s.count r) → ∀ r : Pos, -1 ≤ s2.count r := by
  intro f
  induction f with
  | zero =>
    intro s s2 h hge
    rw [while_any_1] at h
    by_cases hc : (rect_list nr nc).any (fun p => decide (s.count p = 1)) = true
    · rw [if_pos hc] at h
      exact absurd h (by simp)
    · rw [if_neg hc] at h
      simp only [Option.some.injEq] at h
      rw [← h]
      exact hge
  | succ f ih =>
    intro s s2 h hge
    rw [while_any_1] at h
    by_cases hc : (rect_list nr nc).any (fun p => decide (s.count p = 1)) = true
    · rw [if_pos hc] at h
      rcases hbody : make_all_linestrings_starting_at_1 nr nc init fuelI s with _ | s3
      · rw [hbody] at h
        exact absurd h (by simp)
      · rw [hbody] at h
        have h3 := run_starts_1_ge init fuelI _ s s3 hbody hge
        exact ih s3 s2 h h3
    · rw [if_neg hc] at h
      simp only [Option.some.injEq] at h
      rw [← h]
      exact hge

theorem run_starts_2_ge (init : Pos → ℤ) (fuel : ℕ) :
    ∀ (l : List Pos) (s : VecTState) (s2 : VecTState),
      run_starts_2 init fuel s l = some s2 →
      (∀ r : Pos, -1 ≤ s.count r) → ∀ r : Pos, -1 ≤ s2.count r := by
  intro l
  induction l with
  | nil =>
    intro s s2 h hge
    simp only [run_starts_2, Option.some.injEq] at h
    rw [← h]
    exact hge
  | cons p rest ih =>
    intro s s2 h hge
    rw [run_starts_2] at h
    have hstep1 : ∀ (t1c : TrState × List Pos),
        (if 0 < s.count p then investigate_row_col init false fuel ⟨s.count, s.seen⟩ p [p]
          else some (⟨s.count, s.seen⟩, [p])) = some t1c →
        ∀ r : Pos, -1 ≤ t1c.1.count r := by
      intro t1c h1
      by_cases hp : 0 < s.count p
      · rw [if_pos hp] at h1
        exact investigate_counts_ge init false fuel ⟨s.count, s.seen⟩ p [p]
          t1c.1 t1c.2 (by rw [h1]) hge (le_of_lt hp)
      · rw [if_neg hp] at h1
        simp only [Option.some.injEq] at h1
        rw [← h1]
        exact hge
    rcases h1 : (if 0 < s.count p then investigate_row_col init false fuel ⟨s.count, s.seen⟩ p [p]
        else some (⟨s.count, s.seen⟩, [p])) with _ | t1c
    · rw [h1] at h
      exact absurd h (by simp)
    · rw [h1] at h
      dsimp only at h
      have hge1 := hstep1 t1c h1
      have hstep2 : ∀ (t2c : TrState × List Pos),
          (if 0 < t1c.1.count p then investigate_row_col init false fuel t1c.1 p t1c.2.reverse
            else some t1c) = some t2c →
          ∀ r : Pos, -1 ≤ t2c.1.count r := by
        intro t2c h2
        by_cases hp2 : 0 < t1c.1.count p
        · rw [if_pos hp2] at h2
          exact investigate_counts_ge init false fuel t1c.1 p t1c.2.reverse
            t2c.1 t2c.2 (by rw [h2]) hge1 (le_of_lt hp2)
        · rw [if_neg hp2] at h2
          simp only [Option.some.injEq] at h2
          rw [← h2]
          exact hge1
      rcases h2 : (if 0 < t1c.1.count p then
          investigate_row_col init false fuel t1c.1 p t1c.2.reverse else some t1c) with _ | t2c
      · rw [h2] at h
        exact absurd h (by simp)
      · rw [h2] at h
        dsimp only at h
        exact ih _ s2 h (hstep2 t2c h2)

theorem run_remaining_ge (init : Pos → ℤ) (fuel : ℕ) :
    ∀ (l : List Pos) (s : VecTState) (s2 : VecTState),
      l.Nodup →
      run_remaining init fuel s l = some s2 →
      (∀ r : Pos, -1 ≤ s.count r) → (∀ p ∈ l, 0 ≤ s.count p) →
      ∀ r : Pos, -1 ≤ s2.count r := by
  intro l
  induction l with
  | nil =>
    intro s s2 _ h hge _
    simp only [run_remaining, Option.some.injEq] at h
    rw [← h]
    exact hge
  | cons p rest ih =>
    intro s s2 hnd h hge hl
    rw [run_remaining] at h
    rcases hinv : investigate_row_col init true fuel ⟨s.count, s.seen⟩ p [p] with _ | tsc
    · rw [hinv] at h
      exact absurd h (by simp)
    · rw [hinv] at h
      have hge2 := investigate_counts_ge init true fuel ⟨s.count, s.seen⟩ p [p]
        tsc.1 tsc.2 (by rw [hinv]) hge (hl p (List.mem_cons_self p rest))
      have hother := investigate_all_true_other init fuel ⟨s.count, s.seen⟩ p [p]
        tsc.1 tsc.2 (by rw [hinv])
      refine ih _ s2 (List.Nodup.of_cons hnd) h hge2 ?_
      intro q hq
      have hqp : q ≠ p := by
        intro he
        subst he
        exact (List.nodup_cons.mp hnd).1 hq
      exact hother q hqp (hl q (List.mem_cons_of_mem p hq))

theorem while_remaining_ge (nr nc : ℕ) (init : Pos → ℤ) (fuelI : ℕ) :
    ∀ (f : ℕ) (s s2 : VecTState),
      while_remaining nr nc init fuelI f s = some s2 →
      (∀ r : Pos, -1 ≤ s.count r) → ∀ r : Pos, -1 ≤ s2.count r := by
  intro f
  induction f with
  | zero =>
    intro s s2 h hge
    rw [while_remaining] at h
    by_cases hc : (rect_list nr nc).any (fun p => decide (0 < s.count p)) = true
    · rw [if_pos hc] at h
      exact absurd h (by simp)
    · rw [if_neg hc] at h
      simp only [Option.some.injEq] at h
      rw [← h]
      exact hge
  | succ f ih =>
    intro s s2 h hge
    rw [while_remaining] at h
    by_cases hc : (rect_list nr nc).any (fun p => decide (0 < s.count p)) = true
    · rw [if_pos hc] at h
      rcases hbody : run_remaining init fuelI s
          ((rect_list nr nc).filter (fun p => decide (1 ≤ s.count p))) with _ | s3
      · rw [hbody] at h
        exact absurd h (by simp)
      · rw [hbody] at h
        have h3 := run_remaining_ge init fuelI _ s s3
          (List.Nodup.filter _ (rect_list_nodup nr nc)) hbody hge ?side
        · exact ih s3 s2 h h3
        case side =>
          intro q hq
          have := List.of_mem_filter hq
          rw [decide_eq_true_eq] at this
          omega
    · rw [if_neg hc] at h
      simp only [Option.some.injEq] at h
      rw [← h]
      exact hge

theorem make_count_8_grid_nonneg (mask : Pos → ℤ) (p : Pos) :
    0 ≤ make_count_8_grid mask p := by
  rw [make_count_8_grid]
  by_cases hm : 0 < mask p
  · rw [if_pos hm]
    have : ((three_by_three p).map (fun q => if 0 < mask q then (1 : ℤ) else 0)).sum
        = (if 0 < mask (p.1 - 1, p.2 - 1) then (1 : ℤ) else 0)
          + ((if 0 < mask (p.1 - 1, p.2) then (1 : ℤ) else 0)
          + ((if 0 < mask (p.1 - 1, p.2 + 1) then (1 : ℤ) else 0)
          + ((if 0 < mask (p.1, p.2 - 1) then (1 : ℤ) else 0)
          + ((if 0 < mask (p.1, p.2) then (1 : ℤ) else 0)
          + ((if 0 < mask (p.1, p.2 + 1) then (1 : ℤ) else 0)
          + ((if 0 < mask (p.1 + 1, p.2 - 1) then (1 : ℤ) else 0)
          + ((if 0 < mask (p.1 + 1, p.2) then (1 : ℤ) else 0)
          + ((if 0 < mask (p.1 + 1, p.2 + 1) then (1 : ℤ) else 0) + 0)))))))) := by
      simp [three_by_three]
    rw [this]
    have hcentre : (if 0 < mask (p.1, p.2) then (1 : ℤ) else 0) = 1 := by
      cases p
      simp only
      rw [if_pos hm]
    split_ifs <;> omega
  · rw [if_neg hm]

theorem trace_counts_ge_neg_one (nr nc : ℕ) (mask : Pos → ℤ) (fuel : ℕ) (r : Pos) :
    -1 ≤ count_opt (vectorizer_trace nr nc mask fuel) r := by
  rcases htr : vectorizer_trace nr nc mask fuel with _ | s2
  · simp [count_opt]
  · rw [vectorizer_trace, make_all_simple_linestrings] at htr
    rcases h1 : while_any_1 nr nc (make_count_8_grid mask) fuel fuel
        (tracer_init_state mask) with _ | sa
    · rw [h1] at htr
      exact absurd htr (by simp)
    · rw [h1] at htr
      simp only [Option.bind_some, Option.some_bind] at htr
      rcases h2 : make_all_linestrings_starting_at_2 nr nc (make_count_8_grid mask) fuel sa
        with _ | sb
      · rw [h2] at htr
        exact absurd htr (by simp)
      · rw [h2] at htr
        simp only [Option.some_bind] at htr
        rcases h3 : while_any_1 nr nc (make_count_8_grid mask) fuel fuel sb with _ | sc
        · rw [h3] at htr
          exact absurd htr (by simp)
        · rw [h3] at htr
          simp only [Option.some_bind] at htr
          have hge0 : ∀ q : Pos, -1 ≤ (tracer_init_state mask).count q := by
            intro q
            have := make_count_8_grid_nonneg mask q
            simp only [tracer_init_state]
            omega
          have hga := while_any_1_ge nr nc _ fuel fuel _ sa h1 hge0
          have hgb := run_starts_2_ge (make_count_8_grid mask) fuel
            ((rect_list nr nc).filter (fun p =>
              decide (sa.count p = 2) && decide (make_count_8_grid mask p = 2)))
            sa sb h2 hga
          have hgc := while_any_1_ge nr nc _ fuel fuel sb sc h3 hgb
          have hgd := while_remaining_ge nr nc _ fuel fuel sc s2 htr hgc
          simp only [count_opt]
          exact hgd r

/-- C2 amended: the connectivity-count grid stays at or above `-1`
throughout tracing (not at or above `0` as claimed): every
investigation step entered with a non-negative entry count preserves
the `-1` lower bound everywhere, and a full trace of any mask keeps
every cell at or above `-1` (cycle closings can drive a cell to exactly
`-1`, as the diamond counterexample shows). -/
theorem counts_stay_ge_neg_one :
    (∀ (init : Pos → ℤ) (all : Bool) (fuel : ℕ) (s : TrState) (p : Pos) (chain : List Pos)
        (r : Pos), (∀ q : Pos, -1 ≤ s.count q) → 0 ≤ s.count p →
        -1 ≤ inv_count_opt (investigate_row_col init all fuel s p chain) r)
    ∧ ∀ (nr nc : ℕ) (mask : Pos → ℤ) (fuel : ℕ) (r : Pos),
        -1 ≤ count_opt (vectorizer_trace nr nc mask fuel) r := by
  constructor
  · intro init all fuel s p chain r hall hp
    rcases h : investigate_row_col init all fuel s p chain with _ | tsc
    · simp [inv_count_opt]
    · simp only [inv_count_opt]
      exact investigate_counts_ge init all fuel s p chain tsc.1 tsc.2 h hall hp r
  · exact trace_counts_ge_neg_one

/-- C2 amended, witness: investigating the diamond loop's cell `(1,2)`
from the initial count grid. -/
theorem counts_stay_ge_neg_one_witness :
    -1 ≤ inv_count_opt (investigate_row_col (make_count_8_grid diamond_mask) false 10
        ⟨make_count_8_grid diamond_mask, []⟩ ((1 : ℤ), (2 : ℤ)) [((1 : ℤ), (2 : ℤ))])
      ((1 : ℤ), (2 : ℤ)) :=
  counts_stay_ge_neg_one.1 (make_count_8_grid diamond_mask) false 10
    ⟨make_count_8_grid diamond_mask, []⟩ ((1 : ℤ), (2 : ℤ)) [((1 : ℤ), (2 : ℤ))]
    ((1 : ℤ), (2 : ℤ))
    (fun q => le_trans (by norm_num) (make_count_8_grid_nonneg diamond_mask q))
    (by decide)

/-- C2 counterexample: tracing the diamond loop drives the count of
cell `(1,2)` to `-1`: the cycle-closing recursion re-enters the start
cell after its count already reached zero, so the grid does not remain
non-negative (and is not all-zero at termination). -/
theorem diamond_count_reaches_neg_one :
    count_opt (vectorizer_trace 5 5 diamond_mask 100) ((1 : ℤ), (2 : ℤ)) = -1
      ∧ ¬ (0 : ℤ) ≤ count_opt (vectorizer_trace 5 5 diamond_mask 100) ((1 : ℤ), (2 : ℤ))
      ∧ (vectorizer_trace 5 5 diamond_mask 100).isSome = true := by
  refine ⟨by decide, by decide, by decide⟩

/-- C1 counterexample: on the diamond loop, the 8-adjacency between
mask cells `(1,2)` and `(2,1)` is consumed by the tracer but never
appears as a consecutive pair of any emitted chain (the single emitted
chain is `[(1,2), (2,3), (3,2), (2,1)]`, missing the closing edge), so
the union of the chains' edges does not cover every mask adjacency. -/
theorem diamond_adjacency_missing_from_chains :
    mask_adjacent diamond_mask ((1 : ℤ), (2 : ℤ)) ((2 : ℤ), (1 : ℤ))
      ∧ pair_key (((1 : ℤ), (2 : ℤ)), ((2 : ℤ), (1 : ℤ)))
          ∉ all_chain_keys (chains_opt (vectorizer_trace 5 5 diamond_mask 100))
      ∧ chains_opt (vectorizer_trace 5 5 diamond_mask 100)
          = [[((1 : ℤ), (2 : ℤ)), ((2 : ℤ), (3 : ℤ)), ((3 : ℤ), (2 : ℤ)), ((2 : ℤ), (1 : ℤ))]]
      ∧ (vectorizer_trace 5 5 diamond_mask 100).isSome = true := by
  refine ⟨by decide, by decide, by decide, by decide⟩

theorem sum_map_le_map {α : Type} (g1 g2 : α → ℕ) :
    ∀ l : List α, (∀ x ∈ l, g1 x ≤ g2 x) → (l.map g1).sum ≤ (l.map g2).sum := by
  intro l h
  apply List.sum_le_sum
  intro x hx
  exact h x hx

theorem sum_map_lt_mem {α : Type} (g1 g2 : α → ℕ) :
    ∀ l : List α, (∀ x ∈ l, g1 x ≤ g2 x) → ∀ p, p ∈ l → g1 p < g2 p →
      (l.map g1).sum < (l.map g2).sum := by
  intro l
  induction l with
  | nil => intro _ p hp; exact absurd hp (List.not_mem_nil p)
  | cons x rest ih =>
    intro h p hp hlt
    simp only [List.map_cons, List.sum_cons]
    rcases List.mem_cons.mp hp with hpx | hpr
    · subst hpx
      have hrest : (rest.map g1).sum ≤ (rest.map g2).sum :=
        sum_map_le_map g1 g2 rest (fun y hy => h y (List.mem_cons_of_mem _ hy))
      omega
    · have hhead : g1 x ≤ g2 x := h x (List.mem_cons_self x rest)
      have := ih (fun y hy => h y (List.mem_cons_of_mem _ hy)) p hpr hlt
      omega

theorem sum_map_lt_mem_int {α : Type} (g1 g2 : α → ℤ) :
    ∀ l : List α, (∀ x ∈ l, g1 x ≤ g2 x) → ∀ p, p ∈ l → g1 p < g2 p →
      (l.map g1).sum < (l.map g2).sum := by
  intro l
  induction l with
  | nil => intro _ p hp; exact absurd hp (List.not_mem_nil p)
  | cons x rest ih =>
    intro h p hp hlt
    simp only [List.map_cons, List.sum_cons]
    rcases List.mem_cons.mp hp with hpx | hpr
    · subst hpx
      have hrest : (rest.map g1).sum ≤ (rest.map g2).sum :=
        List.sum_le_sum (fun y hy => h y (List.mem_cons_of_mem _ hy))
      omega
    · have hhead : g1 x ≤ g2 x := h x (List.mem_cons_self x rest)
      have := ih (fun y hy => h y (List.mem_cons_of_mem _ hy)) p hpr hlt
      omega

theorem sum_pos_dec_le (nr nc : ℕ) (f : Pos → ℤ) (p : Pos) :
    sum_pos nr nc (dec_at f p) ≤ sum_pos nr nc f := by
  apply sum_map_le_map
  intro x _
  exact Int.toNat_le_toNat (dec_at_le f p x)

theorem sum_pos_dec_lt (nr nc : ℕ) (f : Pos → ℤ) (p : Pos)
    (hp : p ∈ rect_list nr nc) (hpos : 0 < f p) :
    sum_pos nr nc (dec_at f p) < sum_pos nr nc f := by
  apply sum_map_lt_mem _ _ _ ?_ p hp
  · rw [dec_at_self]
    omega
  · intro x _
    exact Int.toNat_le_toNat (dec_at_le f p x)

theorem grid_sum_dec_le (nr nc : ℕ) (f : Pos → ℤ) (p : Pos) :
    grid_sum nr nc (dec_at f p) ≤ grid_sum nr nc f :=
  List.sum_le_sum (fun x _ => dec_at_le f p x)

theorem grid_sum_dec_lt (nr nc : ℕ) (f : Pos → ℤ) (p : Pos) (hp : p ∈ rect_list nr nc) :
    grid_sum nr nc (dec_at f p) < grid_sum nr nc f := by
  apply sum_map_lt_mem_int _ _ _ (fun x _ => dec_at_le f p x) p hp
  rw [dec_at_self]
  omega

theorem support_dec (nr nc : ℕ) (f : Pos → ℤ) (p : Pos)
    (h : support_in_rect nr nc f) : support_in_rect nr nc (dec_at f p) := by
  intro q hq
  exact le_trans (dec_at_le f p q) (h q hq)

theorem support_pos_mem (nr nc : ℕ) (f : Pos → ℤ) (q : Pos)
    (h : support_in_rect nr nc f) (hpos : 0 < f q) : q ∈ rect_list nr nc := by
  rw [rect_list_mem_iff]
  by_contra hc
  have : in_range nr nc q = false := by
    cases hr : in_range nr nc q
    · rfl
    · exact absurd hr hc
  have := h q this
  omega

theorem investigate_sum_spec (nr nc : ℕ) (init : Pos → ℤ) (all : Bool) :
    ∀ (fuel : ℕ) (s : TrState) (p : Pos) (chain : List Pos) (ts : TrState)
      (chain2 : List Pos),
      investigate_row_col init all fuel s p chain = some (ts, chain2) →
      support_in_rect nr nc s.count →
      support_in_rect nr nc ts.count
        ∧ sum_pos nr nc ts.count ≤ sum_pos nr nc s.count
        ∧ grid_sum nr nc ts.count ≤ grid_sum nr nc s.count
        ∧ (p ∈ rect_list nr nc → grid_sum nr nc ts.count < grid_sum nr nc s.count)
        ∧ (0 < s.count p → p ∈ rect_list nr nc →
            sum_pos nr nc ts.count < sum_pos nr nc s.count) := by
  intro fuel
  induction fuel with
  | zero =>
    intro s p chain ts chain2 h
    exact absurd h (by simp [investigate_row_col])
  | succ f ih =>
    intro s p chain ts chain2 h hsupp
    have hsupp1 : support_in_rect nr nc (dec_at s.count p) := support_dec nr nc _ p hsupp
    rw [investigate_row_col] at h
    rcases hfind : find_neighbor (dec_at s.count p) s.seen p with _ | q
    · rw [hfind] at h
      simp only [Option.some.injEq, Prod.mk.injEq] at h
      have hts : ts.count = dec_at s.count p := by rw [← h.1]
      rw [hts]
      refine ⟨hsupp1, sum_pos_dec_le nr nc _ p, grid_sum_dec_le nr nc _ p, ?_, ?_⟩
      · intro hp
        exact grid_sum_dec_lt nr nc _ p hp
      · intro hpos hp
        exact sum_pos_dec_lt nr nc _ p hp hpos
    · rw [hfind] at h
      dsimp only at h
      obtain ⟨hqpos, _⟩ := find_neighbor_spec _ _ _ _ hfind
      have hqmem : q ∈ rect_list nr nc := support_pos_mem nr nc _ q hsupp1 hqpos
      have hsupp2 : support_in_rect nr nc (dec_at (dec_at s.count p) q) :=
        support_dec nr nc _ q hsupp1
      have hsum2lt : sum_pos nr nc (dec_at (dec_at s.count p) q) < sum_pos nr nc s.count :=
        lt_of_lt_of_le (sum_pos_dec_lt nr nc _ q hqmem hqpos) (sum_pos_dec_le nr nc _ p)
      have hgrid2lt : grid_sum nr nc (dec_at (dec_at s.count p) q) < grid_sum nr nc s.count :=
        lt_of_lt_of_le (grid_sum_dec_lt nr nc _ q hqmem) (grid_sum_dec_le nr nc _ p)
      have hfinish : ∀ (tc : Pos → ℤ), tc = dec_at (dec_at s.count p) q →
          support_in_rect nr nc tc
            ∧ sum_pos nr nc tc ≤ sum_pos nr nc s.count
            ∧ grid_sum nr nc tc ≤ grid_sum nr nc s.count
            ∧ (p ∈ rect_list nr nc → grid_sum nr nc tc < grid_sum nr nc s.count)
            ∧ (0 < s.count p → p ∈ rect_list nr nc →
                sum_pos nr nc tc < sum_pos nr nc s.count) := by
        intro tc htc
        subst htc
        exact ⟨hsupp2, le_of_lt hsum2lt, le_of_lt hgrid2lt, fun _ => hgrid2lt,
          fun _ _ => hsum2lt⟩
      by_cases h1 : init q = 1 ∧ all = false
      · rw [if_pos h1] at h
        simp only [Option.some.injEq, Prod.mk.injEq] at h
        exact hfinish ts.count (by rw [← h.1])
      · rw [if_neg h1] at h
        by_cases h2 : init q = 2 ∧ all = false
        · rw [if_pos h2] at h
          obtain ⟨ihs, ihsum, ihgrid, _, _⟩ := ih _ q (chain ++ [q]) ts chain2 h hsupp2
          refine ⟨ihs, le_trans ihsum (le_of_lt hsum2lt),
            le_trans ihgrid (le_of_lt hgrid2lt), fun _ => lt_of_le_of_lt ihgrid hgrid2lt,
            fun _ _ => lt_of_le_of_lt ihsum hsum2lt⟩
        · rw [if_neg h2] at h
          simp only [Option.some.injEq, Prod.mk.injEq] at h
          exact hfinish ts.count (by rw [← h.1])

theorem investigate_isSome (init : Pos → ℤ) (all : Bool) (nr nc : ℕ) :
    ∀ (fuel : ℕ) (s : TrState) (p : Pos) (chain : List Pos),
      support_in_rect nr nc s.count → sum_pos nr nc s.count < fuel →
      (investigate_row_col init all fuel s p chain).isSome = true := by
  intro fuel
  induction fuel with
  | zero => intro s p chain _ hlt; omega
  | succ f ih =>
    intro s p chain hsupp hlt
    have hsupp1 : support_in_rect nr nc (dec_at s.count p) := support_dec nr nc _ p hsupp
    rw [investigate_row_col]
    rcases hfind : find_neighbor (dec_at s.count p) s.seen p with _ | q
    · simp
    · dsimp only
      obtain ⟨hqpos, _⟩ := find_neighbor_spec _ _ _ _ hfind
      have hqmem : q ∈ rect_list nr nc := support_pos_mem nr nc _ q hsupp1 hqpos
      have hsum2 : sum_pos nr nc (dec_at (dec_at s.count p) q) < sum_pos nr nc s.count :=
        lt_of_lt_of_le (sum_pos_dec_lt nr nc _ q hqmem hqpos) (sum_pos_dec_le nr nc _ p)
      by_cases h1 : init q = 1 ∧ all = false
      · rw [if_pos h1]
        simp
      · rw [if_neg h1]
        by_cases h2 : init q = 2 ∧ all = false
        · rw [if_pos h2]
          refine ih ⟨dec_at (dec_at s.count p) q, (p, q) :: (q, p) :: s.seen⟩ q (chain ++ [q])
            (support_dec nr nc _ q hsupp1) ?_
          show sum_pos nr nc (dec_at (dec_at s.count p) q) < f
          omega
        · rw [if_neg h2]
          simp

theorem run_starts_1_spec (nr nc : ℕ) (init : Pos → ℤ) (fuel : ℕ) :
    ∀ (l : List Pos) (s : VecTState),
      support_in_rect nr nc s.count → sum_pos nr nc s.count < fuel →
      ∃ s2, run_starts_1 init fuel s l = some s2
        ∧ support_in_rect nr nc s2.count
        ∧ sum_pos nr nc s2.count ≤ sum_pos nr nc s.count := by
  intro l
  induction l with
  | nil => intro s hs _; exact ⟨s, rfl, hs, le_refl _⟩
  | cons p rest ih =>
    intro s hs hf
    rw [run_starts_1]
    by_cases hp : s.count p = 1
    · rw [if_pos hp]
      have hinv := investigate_isSome init false nr nc fuel ⟨s.count, s.seen⟩ p [p] hs hf
      rcases hi : investigate_row_col init false fuel ⟨s.count, s.seen⟩ p [p] with _ | tsc
      · rw [hi] at hinv
        exact absurd hinv (by simp)
      · obtain ⟨ts, chain⟩ := tsc
        obtain ⟨hs2, hsum2, _, _, _⟩ := investigate_sum_spec nr nc init false fuel
          ⟨s.count, s.seen⟩ p [p] ts chain hi hs
        obtain ⟨s2, he, hs3, hsum3⟩ := ih ⟨ts.count, ts.seen, s.chains ++ [chain]⟩ hs2
          (lt_of_le_of_lt hsum2 hf)
        refine ⟨s2, ?_, hs3, le_trans hsum3 hsum2⟩
        dsimp only
        exact he
    · rw [if_neg hp]
      exact ih s hs hf

theorem while_any_1_spec (nr nc : ℕ) (init : Pos → ℤ) (fuelI : ℕ) :
    ∀ (f : ℕ) (s : VecTState),
      support_in_rect nr nc s.count → sum_pos nr nc s.count < f →
      sum_pos nr nc s.count < fuelI →
      ∃ s2, while_any_1 nr nc init fuelI f s = some s2
        ∧ support_in_rect nr nc s2.count
        ∧ sum_pos nr nc s2.count ≤ sum_pos nr nc s.count := by
  intro f
  induction f with
  | zero => intro s _ hf _; omega
  | succ f ih =>
    intro s hs hf hfi
    rw [while_any_1]
    by_cases hc : (rect_list nr nc).any (fun p => decide (s.count p = 1)) = true
    · rw [if_pos hc]
      rcases hsnap : (rect_list nr nc).filter (fun p => decide (s.count p = 1)) with _ | ⟨p, restl⟩
      · exfalso
        obtain ⟨q, hq, hqp⟩ := List.any_eq_true.mp hc
        have : q ∈ (rect_list nr nc).filter (fun p => decide (s.count p = 1)) :=
          List.mem_filter.mpr ⟨hq, hqp⟩
        rw [hsnap] at this
        exact List.not_mem_nil q this
      · have hpfil : p ∈ (rect_list nr nc).filter (fun p => decide (s.count p = 1)) := by
          rw [hsnap]
          exact List.mem_cons_self p restl
        have hprect : p ∈ rect_list nr nc := (List.mem_filter.mp hpfil).1
        have hp1 : s.count p = 1 := by
          have := (List.mem_filter.mp hpfil).2
          rwa [decide_eq_true_eq] at this
        have hinv := investigate_isSome init false nr nc fuelI ⟨s.count, s.seen⟩ p [p] hs hfi
        rcases hi : investigate_row_col init false fuelI ⟨s.count, s.seen⟩ p [p] with _ | tsc
        · rw [hi] at hinv
          exact absurd hinv (by simp)
        · obtain ⟨ts, chain⟩ := tsc
          obtain ⟨hs2, hsum2, _, _, hstrict⟩ := investigate_sum_spec nr nc init false fuelI
            ⟨s.count, s.seen⟩ p [p] ts chain hi hs
          have hlt : sum_pos nr nc ts.count < sum_pos nr nc s.count := by
            apply hstrict ?_ hprect
            show (0 : ℤ) < s.count p
            omega
          obtain ⟨s4, he4, hsupp4, hsum4⟩ := run_starts_1_spec nr nc init fuelI restl
            ⟨ts.count, ts.seen, s.chains ++ [chain]⟩ hs2 (by show sum_pos nr nc ts.count < fuelI; omega)
          have hsum4n : sum_pos nr nc s4.count ≤ sum_pos nr nc ts.count := hsum4
          have hbody : make_all_linestrings_starting_at_1 nr nc init fuelI s = some s4 := by
            rw [make_all_linestrings_starting_at_1, hsnap, run_starts_1, if_pos hp1, hi]
            dsimp only
            exact he4
          obtain ⟨s2, he2, hs5, hsum5⟩ := ih s4 hsupp4
            (by show sum_pos nr nc s4.count < f; omega)
            (by show sum_pos nr nc s4.count < fuelI; omega)
          refine ⟨s2, ?_, hs5, by omega⟩
          rw [hbody]
          dsimp only
          exact he2
    · rw [if_neg hc]
      exact ⟨s, rfl, hs, le_refl _⟩

theorem run_starts_2_spec (nr nc : ℕ) (init : Pos → ℤ) (fuel : ℕ) :
    ∀ (l : List Pos) (s : VecTState),
      support_in_rect nr nc s.count → sum_pos nr nc s.count < fuel →
      ∃ s2, run_starts_2 init fuel s l = some s2
        ∧ support_in_rect nr nc s2.count
        ∧ sum_pos nr nc s2.count ≤ sum_pos nr nc s.count := by
  intro l
  induction l with
  | nil => intro s hs _; exact ⟨s, rfl, hs, le_refl _⟩
  | cons p rest ih =>
    intro s hs hf
    obtain ⟨t1c, h1, hsupp1, hsum1⟩ : ∃ t1c,
        (if 0 < s.count p then investigate_row_col init false fuel ⟨s.count, s.seen⟩ p [p]
          else some (⟨s.count, s.seen⟩, [p])) = some t1c
          ∧ support_in_rect nr nc t1c.1.count
          ∧ sum_pos nr nc t1c.1.count ≤ sum_pos nr nc s.count := by
      by_cases hp : 0 < s.count p
      · rw [if_pos hp]
        have hinv := investigate_isSome init false nr nc fuel ⟨s.count, s.seen⟩ p [p] hs hf
        rcases hi : investigate_row_col init false fuel ⟨s.count, s.seen⟩ p [p] with _ | tsc
        · rw [hi] at hinv
          exact absurd hinv (by simp)
        · obtain ⟨hsupp2, hsum2, _, _, _⟩ := investigate_sum_spec nr nc init false fuel
            ⟨s.count, s.seen⟩ p [p] tsc.1 tsc.2 hi hs
          exact ⟨tsc, rfl, hsupp2, hsum2⟩
      · rw [if_neg hp]
        exact ⟨(⟨s.count, s.seen⟩, [p]), rfl, hs, le_refl _⟩
    obtain ⟨t2c, h2, hsupp2, hsum2⟩ : ∃ t2c,
        (if 0 < t1c.1.count p then investigate_row_col init false fuel t1c.1 p t1c.2.reverse
          else some t1c) = some t2c
          ∧ support_in_rect nr nc t2c.1.count
          ∧ sum_pos nr nc t2c.1.count ≤ sum_pos nr nc t1c.1.count := by
      by_cases hp : 0 < t1c.1.count p
      · rw [if_pos hp]
        have hinv := investigate_isSome init false nr nc fuel t1c.1 p t1c.2.reverse hsupp1
          (by omega)
        rcases hi : investigate_row_col init false fuel t1c.1 p t1c.2.reverse with _ | tsc
        · rw [hi] at hinv
          exact absurd hinv (by simp)
        · obtain ⟨hsupp3, hsum3, _, _, _⟩ := investigate_sum_spec nr nc init false fuel
            t1c.1 p t1c.2.reverse tsc.1 tsc.2 hi hsupp1
          exact ⟨tsc, rfl, hsupp3, hsum3⟩
      · rw [if_neg hp]
        exact ⟨t1c, rfl, hsupp1, le_refl _⟩
    obtain ⟨s2, he, hs3, hsum3⟩ := ih
      ⟨t2c.1.count, t2c.1.seen,
        if 1 < t2c.2.length then s.chains ++ [t2c.2] else s.chains⟩ hsupp2
      (by show sum_pos nr nc t2c.1.count < fuel; omega)
    have hsum3n : sum_pos nr nc s2.count ≤ sum_pos nr nc t2c.1.count := hsum3
    refine ⟨s2, ?_, hs3, by omega⟩
    rw [run_starts_2, h1]
    dsimp only
    rw [h2]
    dsimp only
    exact he

theorem run_remaining_spec (nr nc : ℕ) (init : Pos → ℤ) (fuel : ℕ) :
    ∀ (l : List Pos) (s : VecTState),
      support_in_rect nr nc s.count → sum_pos nr nc s.count < fuel →
      ∃ s2, run_remaining init fuel s l = some s2
        ∧ support_in_rect nr nc s2.count
        ∧ sum_pos nr nc s2.count ≤ sum_pos nr nc s.count := by
  intro l
  induction l with
  | nil => intro s hs _; exact ⟨s, rfl, hs, le_refl _⟩
  | cons p rest ih =>
    intro s hs hf
    rw [run_remaining]
    have hinv := investigate_isSome init true nr nc fuel ⟨s.count, s.seen⟩ p [p] hs hf
    rcases hi : investigate_row_col init true fuel ⟨s.count, s.seen⟩ p [p] with _ | tsc
    · rw [hi] at hinv
      exact absurd hinv (by simp)
    · obtain ⟨ts, chain⟩ := tsc
      obtain ⟨hs2, hsum2, _, _, _⟩ := investigate_sum_spec nr nc init true fuel
        ⟨s.count, s.seen⟩ p [p] ts chain hi hs
      obtain ⟨s2, he, hs3, hsum3⟩ := ih ⟨ts.count, ts.seen, s.chains ++ [chain]⟩ hs2
        (lt_of_le_of_lt hsum2 hf)
      refine ⟨s2, ?_, hs3, le_trans hsum3 hsum2⟩
      dsimp only
      exact he

theorem while_remaining_spec (nr nc : ℕ) (init : Pos → ℤ) (fuelI : ℕ) :
    ∀ (f : ℕ) (s : VecTState),
      support_in_rect nr nc s.count → sum_pos nr nc s.count < f →
      sum_pos nr nc s.count < fuelI →
      ∃ s2, while_remaining nr nc init fuelI f s = some s2
        ∧ sum_pos nr nc s2.count = 0 := by
  intro f
  induction f with
  | zero => intro s _ hf _; omega
  | succ f ih =>
    intro s hs hf hfi
    rw [while_remaining]
    by_cases hc : (rect_list nr nc).any (fun p => decide (0 < s.count p)) = true
    · rw [if_pos hc]
      rcases hsnap : (rect_list nr nc).filter (fun p => decide (1 ≤ s.count p)) with _ | ⟨p, restl⟩
      · exfalso
        obtain ⟨q, hq, hqp⟩ := List.any_eq_true.mp hc
        rw [decide_eq_true_eq] at hqp
        have : q ∈ (rect_list nr nc).filter (fun p => decide (1 ≤ s.count p)) :=
          List.mem_filter.mpr ⟨hq, by rw [decide_eq_true_eq]; omega⟩
        rw [hsnap] at this
        exact List.not_mem_nil q this
      · have hpfil : p ∈ (rect_list nr nc).filter (fun p => decide (1 ≤ s.count p)) := by
          rw [hsnap]
          exact List.mem_cons_self p restl
        have hprect : p ∈ rect_list nr nc := (List.mem_filter.mp hpfil).1
        have hp1 : 1 ≤ s.count p := by
          have := (List.mem_filter.mp hpfil).2
          rwa [decide_eq_true_eq] at this
        have hinv := investigate_isSome init true nr nc fuelI ⟨s.count, s.seen⟩ p [p] hs hfi
        rcases hi : investigate_row_col init true fuelI ⟨s.count, s.seen⟩ p [p] with _ | tsc
        · rw [hi] at hinv
          exact absurd hinv (by simp)
        · obtain ⟨ts, chain⟩ := tsc
          obtain ⟨hs2, hsum2, _, _, hstrict⟩ := investigate_sum_spec nr nc init true fuelI
            ⟨s.count, s.seen⟩ p [p] ts chain hi hs
          have hlt : sum_pos nr nc ts.count < sum_pos nr nc s.count := by
            apply hstrict ?_ hprect
            show (0 : ℤ) < s.count p
            omega
          obtain ⟨s4, he4, hsupp4, hsum4⟩ := run_remaining_spec nr nc init fuelI restl
            ⟨ts.count, ts.seen, s.chains ++ [chain]⟩ hs2
            (by show sum_pos nr nc ts.count < fuelI; omega)
          have hsum4n : sum_pos nr nc s4.count ≤ sum_pos nr nc ts.count := hsum4
          have hbody : run_remaining init fuelI s (p :: restl) = some s4 := by
            rw [run_remaining, hi]
            dsimp only
            exact he4
          obtain ⟨s2, he2, hz⟩ := ih s4 hsupp4
            (by show sum_pos nr nc s4.count < f; omega)
            (by show sum_pos nr nc s4.count < fuelI; omega)
          refine ⟨s2, ?_, hz⟩
          rw [hbody]
          dsimp only
          exact he2
    · rw [if_neg hc]
      refine ⟨s, rfl, ?_⟩
      have hall : ∀ q ∈ rect_list nr nc, s.count q ≤ 0 := by
        intro q hq
        by_contra hpos
        apply hc
        rw [List.any_eq_true]
        exact ⟨q, hq, by rw [decide_eq_true_eq]; omega⟩
      rw [sum_pos, List.sum_eq_zero_iff]
      intro x hx
      rw [List.mem_map] at hx
      obtain ⟨q, hq, hxq⟩ := hx
      rw [← hxq]
      have := hall q hq
      omega

theorem make_all_simple_spec (nr nc : ℕ) (init : Pos → ℤ) (fuel : ℕ) (s : VecTState)
    (hs : support_in_rect nr nc s.count) (hf : sum_pos nr nc s.count < fuel) :
    ∃ s2, make_all_simple_linestrings nr nc init fuel s = some s2
      ∧ sum_pos nr nc s2.count = 0 := by
  obtain ⟨sa, ha, hsa, hsuma⟩ := while_any_1_spec nr nc init fuel fuel s hs hf hf
  obtain ⟨sb, hb, hsb, hsumb⟩ := run_starts_2_spec nr nc init fuel
    ((rect_list nr nc).filter (fun p => decide (sa.count p = 2) && decide (init p = 2)))
    sa hsa (by omega)
  obtain ⟨sc, hcc, hsc, hsumc⟩ := while_any_1_spec nr nc init fuel fuel sb hsb
    (by omega) (by omega)
  obtain ⟨s2, hd, hz⟩ := while_remaining_spec nr nc init fuel fuel sc hsc
    (by omega) (by omega)
  refine ⟨s2, ?_, hz⟩
  rw [make_all_simple_linestrings, ha]
  simp only [Option.some_bind]
  have hb2 : make_all_linestrings_starting_at_2 nr nc init fuel sa = some sb := hb
  rw [hb2]
  simp only [Option.some_bind]
  rw [hcc]
  simp only [Option.some_bind]
  exact hd

/-- C9: termination of skeleton tracing.  Every completed investigation
step started at an in-range cell strictly decreases the total of the
count grid over the raster (a sum bounded below, since counts stay at
or above `-1`); and a full trace of any mask whose counts vanish off
the raster completes with fuel exceeding the positive-part sum, ending
with no positive count anywhere. -/
theorem skeleton_tracer_terminates :
    (∀ (nr nc : ℕ) (init : Pos → ℤ) (all : Bool) (fuel : ℕ) (s : TrState) (p : Pos)
        (chain : List Pos) (ts : TrState) (chain2 : List Pos),
      investigate_row_col init all fuel s p chain = some (ts, chain2) →
      support_in_rect nr nc s.count → p ∈ rect_list nr nc →
      grid_sum nr nc ts.count < grid_sum nr nc s.count)
    ∧ ∀ (nr nc : ℕ) (mask : Pos → ℤ) (fuel : ℕ),
        support_in_rect nr nc (make_count_8_grid mask) →
        sum_pos nr nc (make_count_8_grid mask) < fuel →
        (vectorizer_trace nr nc mask fuel).isSome = true
          ∧ sum_pos_opt nr nc (vectorizer_trace nr nc mask fuel) = 0 := by
  constructor
  · intro nr nc init all fuel s p chain ts chain2 h hsupp hp
    exact (investigate_sum_spec nr nc init all fuel s p chain ts chain2 h hsupp).2.2.2.1 hp
  · intro nr nc mask fuel hsupp hf
    obtain ⟨s2, he, hz⟩ := make_all_simple_spec nr nc (make_count_8_grid mask) fuel
      (tracer_init_state mask) hsupp hf
    rw [vectorizer_trace, he]
    exact ⟨rfl, by simp only [sum_pos_opt]; exact hz⟩

theorem diamond_support : support_in_rect 5 5 (make_count_8_grid diamond_mask) := by
  intro p hp
  by_cases hm : 0 < diamond_mask p
  · exfalso
    rw [diamond_mask] at hm
    split_ifs at hm with hc
    · rcases hc with h | h | h | h <;> subst h <;> exact absurd hp (by decide)
    · omega
  · rw [make_count_8_grid, if_neg hm]

/-- C9, witness: the diamond mask on the 5 by 5 padded raster, fuel
`100` exceeding its positive-count sum `8`. -/
theorem skeleton_tracer_terminates_witness :
    (vectorizer_trace 5 5 diamond_mask 100).isSome = true
      ∧ sum_pos_opt 5 5 (vectorizer_trace 5 5 diamond_mask 100) = 0 :=
  skeleton_tracer_terminates.2 5 5 diamond_mask 100 diamond_support (by decide)

theorem lex_le_antisymm (a b : Pos) (h1 : lex_le a b = true) (h2 : lex_le b a = true) :
    a = b := by
  rw [lex_le] at h1 h2
  simp only [Bool.or_eq_true, Bool.and_eq_true, decide_eq_true_eq] at h1 h2
  cases a with
  | mk a1 a2 =>
    cases b with
    | mk b1 b2 =>
      simp only at h1 h2
      rw [Prod.mk.injEq]
      omega

theorem lex_le_total (a b : Pos) : lex_le a b = true ∨ lex_le b a = true := by
  rw [lex_le, lex_le]
  simp only [Bool.or_eq_true, Bool.and_eq_true, decide_eq_true_eq]
  omega

theorem pair_key_swap (a b : Pos) : pair_key (b, a) = pair_key (a, b) := by
  rw [pair_key, pair_key]
  simp only
  by_cases h1 : lex_le a b = true
  · by_cases h2 : lex_le b a = true
    · have := lex_le_antisymm a b h1 h2
      subst this
      simp
    · simp only [h1, if_true, if_pos h1]
      rw [if_neg (by simp [h2])]
  · by_cases h2 : lex_le b a = true
    · simp only [h2, if_true, if_pos h2]
      rw [if_neg (by simp [h1])]
    · rcases lex_le_total a b with h | h
      · exact absurd h h1
      · exact absurd h h2

theorem pair_key_eq_cases (a b c d : Pos) (h : pair_key (a, b) = pair_key (c, d)) :
    (a = c ∧ b = d) ∨ (a = d ∧ b = c) := by
  rw [pair_key, pair_key] at h
  simp only at h
  by_cases h1 : lex_le a b = true
  · by_cases h2 : lex_le c d = true
    · rw [if_pos h1, if_pos h2] at h
      rw [Prod.mk.injEq] at h
      exact Or.inl h
    · rw [if_pos h1, if_neg h2] at h
      rw [Prod.mk.injEq] at h
      exact Or.inr h
  · by_cases h2 : lex_le c d = true
    · rw [if_neg h1, if_pos h2] at h
      rw [Prod.mk.injEq] at h
      exact Or.inr ⟨h.2, h.1⟩
    · rw [if_neg h1, if_neg h2] at h
      rw [Prod.mk.injEq] at h
      exact Or.inl ⟨h.2, h.1⟩

theorem chain_pairs_nil : chain_pairs [] = [] := rfl

theorem chain_pairs_single (p : Pos) : chain_pairs [p] = [] := rfl

theorem chain_pairs_cons_cons (x y : Pos) (l : List Pos) :
    chain_pairs (x :: y :: l) = (x, y) :: chain_pairs (y :: l) := rfl

theorem chain_pairs_concat :
    ∀ (c : List Pos) (q : Pos),
      chain_pairs (c ++ [q]) = chain_pairs c ++
        (match c.getLast? with
          | none => []
          | some a => [(a, q)]) := by
  intro c
  induction c with
  | nil => intro q; rfl
  | cons x rest ih =>
    intro q
    cases rest with
    | nil => rfl
    | cons y rest2 =>
      have : (x :: y :: rest2) ++ [q] = x :: ((y :: rest2) ++ [q]) := rfl
      rw [this]
      have hne : (y :: rest2) ++ [q] = y :: (rest2 ++ [q]) := rfl
      rw [hne, chain_pairs_cons_cons, ← hne, ih q, chain_pairs_cons_cons]
      simp only [List.getLast?_cons_cons, List.cons_append]

theorem chain_pairs_dropLast :
    ∀ c : List Pos, chain_pairs c.dropLast = (chain_pairs c).dropLast := by
  intro c
  induction c with
  | nil => rfl
  | cons x rest ih =>
    cases rest with
    | nil => rfl
    | cons y rest2 =>
      cases rest2 with
      | nil => rfl
      | cons z rest3 =>
        have h1 : (x :: y :: z :: rest3).dropLast = x :: (y :: z :: rest3).dropLast := rfl
        rw [h1]
        have h2 : (y :: z :: rest3).dropLast = y :: (z :: rest3).dropLast := rfl
        rw [h2, chain_pairs_cons_cons, ← h2, ih, chain_pairs_cons_cons]
        cases hcp : chain_pairs (y :: z :: rest3) with
        | nil =>
          exfalso
          have : chain_pairs (y :: z :: rest3) = (y, z) :: chain_pairs (z :: rest3) := rfl
          rw [this] at hcp
          exact absurd hcp (by simp)
        | cons a as => rfl

theorem chain_pairs_reverse :
    ∀ c : List Pos, chain_pairs c.reverse = ((chain_pairs c).reverse).map
      (fun e => (e.2, e.1)) := by
  intro c
  induction c with
  | nil => rfl
  | cons x rest ih =>
    cases rest with
    | nil => rfl
    | cons y rest2 =>
      have h1 : (x :: y :: rest2).reverse = (y :: rest2).reverse ++ [x] := by simp
      rw [h1, chain_pairs_concat, chain_pairs_cons_cons, ih]
      have h2 : (y :: rest2).reverse.getLast? = some y := by
        rw [List.getLast?_reverse]
        rfl
      rw [h2]
      simp

theorem chain_keys_nil : chain_keys [] = [] := rfl

theorem chain_keys_single (p : Pos) : chain_keys [p] = [] := rfl

theorem chain_keys_concat_last (c : List Pos) (a q : Pos) (h : c.getLast? = some a) :
    chain_keys (c ++ [q]) = chain_keys c ++ [pair_key (a, q)] := by
  rw [chain_keys, chain_pairs_concat, h]
  simp [chain_keys]

theorem chain_keys_dropLast_sublist (c : List Pos) :
    (chain_keys c.dropLast).Sublist (chain_keys c) := by
  rw [chain_keys, chain_pairs_dropLast, chain_keys]
  exact (List.dropLast_sublist _).map pair_key

theorem chain_keys_reverse_perm (c : List Pos) :
    (chain_keys c.reverse).Perm (chain_keys c) := by
  rw [chain_keys, chain_pairs_reverse, List.map_map]
  have hmap : ((chain_pairs c).reverse).map (pair_key ∘ fun e => (e.2, e.1))
      = ((chain_pairs c).reverse).map pair_key := by
    apply List.map_congr_left
    intro e _
    simp only [Function.comp_apply]
    exact pair_key_swap e.1 e.2
  rw [hmap, chain_keys]
  exact (List.reverse_perm _).map pair_key

theorem keys_covered_mono (seen seen2 : List (Pos × Pos)) (K : List (Pos × Pos))
    (h : keys_covered seen K) (hsub : ∀ e ∈ seen, e ∈ seen2) : keys_covered seen2 K := by
  intro k hk
  obtain ⟨e, he, hke⟩ := h k hk
  exact ⟨e, hsub e he, hke⟩

theorem keys_covered_append (seen : List (Pos × Pos)) (K1 K2 : List (Pos × Pos))
    (h1 : keys_covered seen K1) (h2 : keys_covered seen K2) :
    keys_covered seen (K1 ++ K2) := by
  intro k hk
  rcases List.mem_append.mp hk with h | h
  · exact h1 k h
  · exact h2 k h

theorem keys_covered_sublist (seen : List (Pos × Pos)) (K1 K2 : List (Pos × Pos))
    (h : keys_covered seen K2) (hsub : K1.Sublist K2) : keys_covered seen K1 := by
  intro k hk
  exact h k (hsub.mem hk)

theorem keys_covered_perm (seen : List (Pos × Pos)) (K1 K2 : List (Pos × Pos))
    (h : keys_covered seen K2) (hperm : K1.Perm K2) : keys_covered seen K1 := by
  intro k hk
  exact h k (hperm.mem_iff.mp hk)

theorem key_fresh (seen : List (Pos × Pos)) (K : List (Pos × Pos)) (p q : Pos)
    (hsym : seen_symmetric seen) (hnot : (p, q) ∉ seen) (hcov : keys_covered seen K) :
    pair_key (p, q) ∉ K := by
  intro hmem
  obtain ⟨e, he, hke⟩ := hcov _ hmem
  obtain ⟨e1, e2⟩ := e
  rcases pair_key_eq_cases e1 e2 p q hke with ⟨h1, h2⟩ | ⟨h1, h2⟩
  · subst h1
    subst h2
    exact hnot he
  · subst h1
    subst h2
    exact hnot (hsym _ he)

theorem investigate_pairs_spec (init : Pos → ℤ) (all : Bool) :
    ∀ (fuel : ℕ) (s : TrState) (p : Pos) (chain : List Pos) (ts : TrState)
      (chain2 : List Pos) (base : List (Pos × Pos)),
      investigate_row_col init all fuel s p chain = some (ts, chain2) →
      seen_symmetric s.seen →
      keys_covered s.seen (base ++ chain_keys chain) →
      (base ++ chain_keys chain).Nodup →
      (chain = [] ∨ chain.getLast? = some p) →
      seen_symmetric ts.seen
        ∧ keys_covered ts.seen (base ++ chain_keys chain2)
        ∧ (base ++ chain_keys chain2).Nodup
        ∧ (∀ e ∈ s.seen, e ∈ ts.seen)
        ∧ (chain ≠ [] → (chain2 = [] ∨ chain2.head? = chain.head?)) := by
  intro fuel
  induction fuel with
  | zero =>
    intro s p chain ts chain2 base h
    exact absurd h (by simp [investigate_row_col])
  | succ f ih =>
    intro s p chain ts chain2 base h hsym hcov hnd hlast
    rw [investigate_row_col] at h
    rcases hfind : find_neighbor (dec_at s.count p) s.seen p with _ | q
    · rw [hfind] at h
      simp only [Option.some.injEq, Prod.mk.injEq] at h
      obtain ⟨hts, hchain⟩ := h
      have hseen : ts.seen = s.seen := by rw [← hts]
      have hsub : (base ++ chain_keys chain.dropLast).Sublist (base ++ chain_keys chain) :=
        (chain_keys_dropLast_sublist chain).append_left base
      refine ⟨by rw [hseen]; exact hsym, ?_, ?_, ?_, ?_⟩
      · rw [hseen, ← hchain]
        exact keys_covered_sublist _ _ _ hcov hsub
      · rw [← hchain]
        exact hsub.nodup hnd
      · intro e he
        rw [hseen]
        exact he
      · intro hne
        rw [← hchain]
        cases chain with
        | nil => exact absurd rfl hne
        | cons x rest =>
          cases rest with
          | nil => exact Or.inl rfl
          | cons y rest2 => exact Or.inr rfl
    · rw [hfind] at h
      dsimp only at h
      obtain ⟨hqpos, hnot⟩ := find_neighbor_spec _ _ _ _ hfind
      have hsym2 : seen_symmetric ((p, q) :: (q, p) :: s.seen) := by
        intro e he
        rcases List.mem_cons.mp he with he1 | he2
        · subst he1
          exact List.mem_cons_of_mem _ (List.mem_cons_self _ _)
        · rcases List.mem_cons.mp he2 with he3 | he4
          · subst he3
            exact List.mem_cons_self _ _
          · exact List.mem_cons_of_mem _ (List.mem_cons_of_mem _ (hsym e he4))
      have hmono2 : ∀ e ∈ s.seen, e ∈ (p, q) :: (q, p) :: s.seen := by
        intro e he
        exact List.mem_cons_of_mem _ (List.mem_cons_of_mem _ he)
      have hcov2 : keys_covered ((p, q) :: (q, p) :: s.seen) (base ++ chain_keys chain) :=
        keys_covered_mono _ _ _ hcov hmono2
      have hfresh : pair_key (p, q) ∉ base ++ chain_keys chain :=
        key_fresh s.seen _ p q hsym hnot hcov
      have hnew : (base ++ chain_keys (chain ++ [q])).Nodup
          ∧ keys_covered ((p, q) :: (q, p) :: s.seen) (base ++ chain_keys (chain ++ [q])) := by
        rcases hlast with hnil | hlastp
        · subst hnil
          constructor
          · simpa [chain_keys_single, chain_keys_nil] using hnd
          · intro k hk
            apply hcov2
            simpa [chain_keys_single, chain_keys_nil] using hk
        · rw [chain_keys_concat_last chain p q hlastp, ← List.append_assoc]
          constructor
          · rw [List.nodup_append]
            refine ⟨hnd, List.nodup_singleton _, ?_⟩
            intro x hx hxk
            rw [List.mem_singleton] at hxk
            subst hxk
            exact hfresh hx
          · apply keys_covered_append
            · exact hcov2
            · intro k hk
              rw [List.mem_singleton] at hk
              subst hk
              exact ⟨(p, q), List.mem_cons_self _ _, rfl⟩
      have hheadq : chain ≠ [] → (chain ++ [q]).head? = chain.head? := by
        intro hne
        exact List.head?_append_of_ne_nil chain hne
      by_cases h1 : init q = 1 ∧ all = false
      · rw [if_pos h1] at h
        simp only [Option.some.injEq, Prod.mk.injEq] at h
        obtain ⟨hts, hchain⟩ := h
        have hseen : ts.seen = (p, q) :: (q, p) :: s.seen := by rw [← hts]
        refine ⟨by rw [hseen]; exact hsym2, ?_, ?_, ?_, ?_⟩
        · rw [hseen, ← hchain]
          exact hnew.2
        · rw [← hchain]
          exact hnew.1
        · intro e he
          rw [hseen]
          exact hmono2 e he
        · intro hne
          rw [← hchain]
          exact Or.inr (hheadq hne)
      · rw [if_neg h1] at h
        by_cases h2 : init q = 2 ∧ all = false
        · rw [if_pos h2] at h
          obtain ⟨sym3, cov3, nd3, mono3, head3⟩ := ih
            ⟨dec_at (dec_at s.count p) q, (p, q) :: (q, p) :: s.seen⟩ q (chain ++ [q])
            ts chain2 base h hsym2 hnew.2 hnew.1 (Or.inr (List.getLast?_concat chain))
          refine ⟨sym3, cov3, nd3, ?_, ?_⟩
          · intro e he
            exact mono3 e (hmono2 e he)
          · intro hne
            rcases head3 (by simp) with hc2 | hc2
            · exact Or.inl hc2
            · rw [hc2]
              exact Or.inr (hheadq hne)
        · rw [if_neg h2] at h
          simp only [Option.some.injEq, Prod.mk.injEq] at h
          obtain ⟨hts, hchain⟩ := h
          have hseen : ts.seen = (p, q) :: (q, p) :: s.seen := by rw [← hts]
          refine ⟨by rw [hseen]; exact hsym2, ?_, ?_, ?_, ?_⟩
          · rw [hseen, ← hchain]
            exact hnew.2
          · rw [← hchain]
            exact hnew.1
          · intro e he
            rw [hseen]
            exact hmono2 e he
          · intro hne
            rw [← hchain]
            exact Or.inr (hheadq hne)

theorem all_chain_keys_append (chains : List (List Pos)) (c : List Pos) :
    all_chain_keys (chains ++ [c]) = all_chain_keys chains ++ chain_keys c := by
  rw [all_chain_keys, all_chain_keys, List.flatMap_append]
  simp

theorem tracer_inv_drop_chain (seen : List (Pos × Pos)) (base K : List (Pos × Pos))
    (hcov : keys_covered seen (base ++ K)) (hnd : (base ++ K).Nodup) :
    keys_covered seen base ∧ base.Nodup :=
  ⟨keys_covered_sublist _ _ _ hcov (List.sublist_append_left base K),
    (List.sublist_append_left base K).nodup hnd⟩

theorem run_starts_1_pairs (init : Pos → ℤ) (fuel : ℕ) :
    ∀ (l : List Pos) (s s2 : VecTState),
      run_starts_1 init fuel s l = some s2 → tracer_inv s → tracer_inv s2 := by
  intro l
  induction l with
  | nil =>
    intro s s2 h hinv
    simp only [run_starts_1, Option.some.injEq] at h
    rw [← h]
    exact hinv
  | cons p rest ih =>
    intro s s2 h hinv
    rw [run_starts_1] at h
    by_cases hp : s.count p = 1
    · rw [if_pos hp] at h
      rcases hi : investigate_row_col init false fuel ⟨s.count, s.seen⟩ p [p] with _ | tsc
      · rw [hi] at h
        exact absurd h (by simp)
      · rw [hi] at h
        obtain ⟨ts, chain⟩ := tsc
        obtain ⟨hsym, hcov, hnd⟩ := hinv
        have hcov0 : keys_covered s.seen (all_chain_keys s.chains ++ chain_keys [p]) := by
          rw [chain_keys_single, List.append_nil]
          exact hcov
        have hnd0 : (all_chain_keys s.chains ++ chain_keys [p]).Nodup := by
          rw [chain_keys_single, List.append_nil]
          exact hnd
        obtain ⟨sym2, cov2, nd2, _, _⟩ := investigate_pairs_spec init false fuel
          ⟨s.count, s.seen⟩ p [p] ts chain (all_chain_keys s.chains) hi hsym hcov0 hnd0
          (Or.inr rfl)
        refine ih ⟨ts.count, ts.seen, s.chains ++ [chain]⟩ s2 h ⟨sym2, ?_, ?_⟩
        · show keys_covered ts.seen (all_chain_keys (s.chains ++ [chain]))
          rw [all_chain_keys_append]
          exact cov2
        · show (all_chain_keys (s.chains ++ [chain])).Nodup
          rw [all_chain_keys_append]
          exact nd2
    · rw [if_neg hp] at h
      exact ih s s2 h hinv

theorem while_any_1_pairs (nr nc : ℕ) (init : Pos → ℤ) (fuelI : ℕ) :
    ∀ (f : ℕ) (s s2 : VecTState),
      while_any_1 nr nc init fuelI f s = some s2 → tracer_inv s → tracer_inv s2 := by
  intro f
  induction f with
  | zero =>
    intro s s2 h hinv
    rw [while_any_1] at h
    by_cases hc : (rect_list nr nc).any (fun p => decide (s.count p = 1)) = true
    · rw [if_pos hc] at h
      exact absurd h (by simp)
    · rw [if_neg hc] at h
      simp only [Option.some.injEq] at h
      rw [← h]
      exact hinv
  | succ f ih =>
    intro s s2 h hinv
    rw [while_any_1] at h
    by_cases hc : (rect_list nr nc).any (fun p => decide (s.count p = 1)) = true
    · rw [if_pos hc] at h
      rcases hbody : make_all_linestrings_starting_at_1 nr nc init fuelI s with _ | s3
      · rw [hbody] at h
        exact absurd h (by simp)
      · rw [hbody] at h
        exact ih s3 s2 h (run_starts_1_pairs init fuelI _ s s3 hbody hinv)
    · rw [if_neg hc] at h
      simp only [Option.some.injEq] at h
      rw [← h]
      exact hinv

theorem run_starts_2_pairs (init : Pos → ℤ) (fuel : ℕ) :
    ∀ (l : List Pos) (s s2 : VecTState),
      run_starts_2 init fuel s l = some s2 → tracer_inv s → tracer_inv s2 := by
  intro l
  induction l with
  | nil =>
    intro s s2 h hinv
    simp only [run_starts_2, Option.some.injEq] at h
    rw [← h]
    exact hinv
  | cons p rest ih =>
    intro s s2 h hinv
    obtain ⟨hsym, hcov, hnd⟩ := hinv
    have hcov0 : keys_covered s.seen (all_chain_keys s.chains ++ chain_keys [p]) := by
      rw [chain_keys_single, List.append_nil]
      exact hcov
    have hnd0 : (all_chain_keys s.chains ++ chain_keys [p]).Nodup := by
      rw [chain_keys_single, List.append_nil]
      exact hnd
    rw [run_starts_2] at h
    rcases h1 : (if 0 < s.count p then
        investigate_row_col init false fuel ⟨s.count, s.seen⟩ p [p]
        else some (⟨s.count, s.seen⟩, [p])) with _ | t1c
    · rw [h1] at h
      exact absurd h (by simp)
    · rw [h1] at h
      dsimp only at h
      have hfacts1 : seen_symmetric t1c.1.seen
          ∧ keys_covered t1c.1.seen (all_chain_keys s.chains ++ chain_keys t1c.2)
          ∧ (all_chain_keys s.chains ++ chain_keys t1c.2).Nodup
          ∧ (t1c.2 = [] ∨ t1c.2.head? = some p) := by
        by_cases hp : 0 < s.count p
        · rw [if_pos hp] at h1
          obtain ⟨sym2, cov2, nd2, _, hh2⟩ := investigate_pairs_spec init false fuel
            ⟨s.count, s.seen⟩ p [p] t1c.1 t1c.2 (all_chain_keys s.chains) h1 hsym hcov0 hnd0
            (Or.inr rfl)
          refine ⟨sym2, cov2, nd2, ?_⟩
          rcases hh2 (by simp) with hh | hh
          · exact Or.inl hh
          · exact Or.inr hh
        · rw [if_neg hp] at h1
          simp only [Option.some.injEq] at h1
          rw [← h1]
          exact ⟨hsym, hcov0, hnd0, Or.inr rfl⟩
      rcases h2 : (if 0 < t1c.1.count p then
          investigate_row_col init false fuel t1c.1 p t1c.2.reverse
          else some t1c) with _ | t2c
      · rw [h2] at h
        exact absurd h (by simp)
      · rw [h2] at h
        dsimp only at h
        obtain ⟨sym1, cov1, nd1, hhead1⟩ := hfacts1
        have hfacts2 : seen_symmetric t2c.1.seen
            ∧ keys_covered t2c.1.seen (all_chain_keys s.chains ++ chain_keys t2c.2)
            ∧ (all_chain_keys s.chains ++ chain_keys t2c.2).Nodup := by
          by_cases hp2 : 0 < t1c.1.count p
          · rw [if_pos hp2] at h2
            have hperm := (chain_keys_reverse_perm t1c.2).append_left (all_chain_keys s.chains)
            have hcovr : keys_covered t1c.1.seen
                (all_chain_keys s.chains ++ chain_keys t1c.2.reverse) :=
              keys_covered_perm _ _ _ cov1 hperm
            have hndr : (all_chain_keys s.chains ++ chain_keys t1c.2.reverse).Nodup :=
              hperm.nodup_iff.mpr nd1
            have hlastr : t1c.2.reverse = [] ∨ (t1c.2.reverse).getLast? = some p := by
              rcases hhead1 with hnil | hhead
              · rw [hnil]
                exact Or.inl rfl
              · right
                rw [List.getLast?_reverse]
                exact hhead
            obtain ⟨sym3, cov3, nd3, _, _⟩ := investigate_pairs_spec init false fuel
              t1c.1 p t1c.2.reverse t2c.1 t2c.2 (all_chain_keys s.chains) h2 sym1 hcovr
              hndr hlastr
            exact ⟨sym3, cov3, nd3⟩
          · rw [if_neg hp2] at h2
            simp only [Option.some.injEq] at h2
            rw [← h2]
            exact ⟨sym1, cov1, nd1⟩
        obtain ⟨sym4, cov4, nd4⟩ := hfacts2
        refine ih ⟨t2c.1.count, t2c.1.seen,
          if 1 < t2c.2.length then s.chains ++ [t2c.2] else s.chains⟩ s2 h ⟨sym4, ?_, ?_⟩
        · show keys_covered t2c.1.seen
            (all_chain_keys (if 1 < t2c.2.length then s.chains ++ [t2c.2] else s.chains))
          by_cases hl : 1 < t2c.2.length
          · rw [if_pos hl, all_chain_keys_append]
            exact cov4
          · rw [if_neg hl]
            exact (tracer_inv_drop_chain _ _ _ cov4 nd4).1
        · show (all_chain_keys
            (if 1 < t2c.2.length then s.chains ++ [t2c.2] else s.chains)).Nodup
          by_cases hl : 1 < t2c.2.length
          · rw [if_pos hl, all_chain_keys_append]
            exact nd4
          · rw [if_neg hl]
            exact (tracer_inv_drop_chain _ _ _ cov4 nd4).2

theorem run_remaining_pairs (init : Pos → ℤ) (fuel : ℕ) :
    ∀ (l : List Pos) (s s2 : VecTState),
      run_remaining init fuel s l = some s2 → tracer_inv s → tracer_inv s2 := by
  intro l
  induction l with
  | nil =>
    intro s s2 h hinv
    simp only [run_remaining, Option.some.injEq] at h
    rw [← h]
    exact hinv
  | cons p rest ih =>
    intro s s2 h hinv
    rw [run_remaining] at h
    rcases hi : investigate_row_col init true fuel ⟨s.count, s.seen⟩ p [p] with _ | tsc
    · rw [hi] at h
      exact absurd h (by simp)
    · rw [hi] at h
      obtain ⟨ts, chain⟩ := tsc
      obtain ⟨hsym, hcov, hnd⟩ := hinv
      have hcov0 : keys_covered s.seen (all_chain_keys s.chains ++ chain_keys [p]) := by
        rw [chain_keys_single, List.append_nil]
        exact hcov
      have hnd0 : (all_chain_keys s.chains ++ chain_keys [p]).Nodup := by
        rw [chain_keys_single, List.append_nil]
        exact hnd
      obtain ⟨sym2, cov2, nd2, _, _⟩ := investigate_pairs_spec init true fuel
        ⟨s.count, s.seen⟩ p [p] ts chain (all_chain_keys s.chains) hi hsym hcov0 hnd0
        (Or.inr rfl)
      refine ih ⟨ts.count, ts.seen, s.chains ++ [chain]⟩ s2 h ⟨sym2, ?_, ?_⟩
      · show keys_covered ts.seen (all_chain_keys (s.chains ++ [chain]))
        rw [all_chain_keys_append]
        exact cov2
      · show (all_chain_keys (s.chains ++ [chain])).Nodup
        rw [all_chain_keys_append]
        exact nd2

theorem while_remaining_pairs (nr nc : ℕ) (init : Pos → ℤ) (fuelI : ℕ) :
    ∀ (f : ℕ) (s s2 : VecTState),
      while_remaining nr nc init fuelI f s = some s2 → tracer_inv s → tracer_inv s2 := by
  intro f
  induction f with
  | zero =>
    intro s s2 h hinv
    rw [while_remaining] at h
    by_cases hc : (rect_list nr nc).any (fun p => decide (0 < s.count p)) = true
    · rw [if_pos hc] at h
      exact absurd h (by simp)
    · rw [if_neg hc] at h
      simp only [Option.some.injEq] at h
      rw [← h]
      exact hinv
  | succ f ih =>
    intro s s2 h hinv
    rw [while_remaining] at h
    by_cases hc : (rect_list nr nc).any (fun p => decide (0 < s.count p)) = true
    · rw [if_pos hc] at h
      rcases hbody : run_remaining init fuelI s
          ((rect_list nr nc).filter (fun p => decide (1 ≤ s.count p))) with _ | s3
      · rw [hbody] at h
        exact absurd h (by simp)
      · rw [hbody] at h
        exact ih s3 s2 h (run_remaining_pairs init fuelI _ s s3 hbody hinv)
    · rw [if_neg hc] at h
      simp only [Option.some.injEq] at h
      rw [← h]
      exact hinv

/-- C1 amended: across all chains emitted by a full skeleton trace, no
unordered cell pair occurs as a consecutive pair more than once — the
canonical keys of all consecutive pairs are duplicate-free.  (The
original claim additionally asserted that no mask adjacency is missing,
which the diamond-loop counterexample refutes: a cycle-closing edge is
consumed without being emitted.) -/
theorem trace_chain_pairs_unique (nr nc : ℕ) (mask : Pos → ℤ) (fuel : ℕ) :
    (all_chain_keys (chains_opt (vectorizer_trace nr nc mask fuel))).Nodup := by
  rcases htr : vectorizer_trace nr nc mask fuel with _ | s2
  · exact List.nodup_nil
  · rw [vectorizer_trace, make_all_simple_linestrings] at htr
    rcases h1 : while_any_1 nr nc (make_count_8_grid mask) fuel fuel
        (tracer_init_state mask) with _ | sa
    · rw [h1] at htr
      exact absurd htr (by simp)
    · rw [h1] at htr
      simp only [Option.some_bind] at htr
      rcases h2 : make_all_linestrings_starting_at_2 nr nc (make_count_8_grid mask) fuel sa
        with _ | sb
      · rw [h2] at htr
        exact absurd htr (by simp)
      · rw [h2] at htr
        simp only [Option.some_bind] at htr
        rcases h3 : while_any_1 nr nc (make_count_8_grid mask) fuel fuel sb with _ | sc
        · rw [h3] at htr
          exact absurd htr (by simp)
        · rw [h3] at htr
          simp only [Option.some_bind] at htr
          have hinv0 : tracer_inv (tracer_init_state mask) := by
            refine ⟨?_, ?_, ?_⟩
            · intro e he
              exact absurd he (List.not_mem_nil e)
            · intro k hk
              exact absurd hk (List.not_mem_nil k)
            · exact List.nodup_nil
          have hia := while_any_1_pairs nr nc _ fuel fuel _ sa h1 hinv0
          have hib := run_starts_2_pairs (make_count_8_grid mask) fuel
            ((rect_list nr nc).filter (fun p =>
              decide (sa.count p = 2) && decide (make_count_8_grid mask p = 2)))
            sa sb h2 hia
          have hic := while_any_1_pairs nr nc _ fuel fuel sb sc h3 hib
          have hid := while_remaining_pairs nr nc _ fuel fuel sc s2 htr hic
          simp only [chains_opt]
          exact hid.2.2

/-- C1 amended, witness: the diamond loop trace has duplicate-free
consecutive-pair keys. -/
theorem trace_chain_pairs_unique_witness :
    (all_chain_keys (chains_opt (vectorizer_trace 5 5 diamond_mask 100))).Nodup :=
  trace_chain_pairs_unique 5 5 diamond_mask 100

/-- C10, witness: the labels of the representatives on the 1 by 3
stitch basin are duplicate-free. -/
theorem min_elevation_points_witness :
    ((get_component_min_elevation_points bd_stitch).map bd_stitch.component_grid).Nodup :=
  (min_elevation_points_one_per_component bd_stitch).1
